import Mathlib

/-!
Verification of the `fast_base_convert` base-conversion engine.

The Rust sources (`src/baseline.rs`, `src/optimized.rs`, `src/utils.rs`) are
shallowly embedded below.  Digit sequences are `List Nat`, least-significant
digit first, exactly as the `&[u64]` slices of the source.  The `u64`/`u128`
arithmetic of the source never overflows on the paths reasoned about here
(carries are `< to_base ≤ 65536`, per-step values are `< 2^33`, the `u128`
accumulator is guarded by explicit overflow checks that are part of the
embedding), so machine integers are embedded as `Nat`.

Both general-case division loops of the optimized converter
(`convert_general_optimized_tricks` and `convert_large_number_chunked`)
process digits in a scrambled order and can cycle, so they are embedded with
an explicit `fuel` parameter; `none` means the fuel ran out.  All other
paths ignore the fuel.  Rust `panic!` is embedded as `Except.error`.
-/

namespace FastBaseConvert

/-- Error kinds of the engine: `panic!("Bases must be …")` and
`panic!("Invalid digit …")` in the source. -/
inductive ConvError where
  | invalidBase
  | invalidDigit
deriving DecidableEq, Repr

abbrev ConvResult := Except ConvError (List Nat)

/-- Value of a least-significant-first digit sequence:  Σ digit[i] · b^i. -/
def evalDigits (b : Nat) (ds : List Nat) : Nat :=
  ds.foldr (fun d acc => acc * b + d) 0

/-- Value of a most-significant-first digit sequence with seed accumulator
`a`, i.e. the running value of the scan `a = a*b + d`. -/
def valFrom (b a : Nat) (ds : List Nat) : Nat :=
  ds.foldl (fun a d => a * b + d) a

/-- Rust `while result.len() > 1 && result.last() == Some(&0) { result.pop(); }`:
drop trailing (most-significant) zeros, keeping at least one digit of a
nonempty list.  Implemented on the reversed list so that it computes by
structural recursion. -/
def trimAux : List Nat → List Nat
  | [] => []
  | [x] => [x]
  | x :: y :: rest => if x = 0 then trimAux (y :: rest) else x :: y :: rest

def trim (l : List Nat) : List Nat := (trimAux l.reverse).reverse

/-- Canonical form: nonempty, and no most-significant zero digit except for
the single sequence `[0]`. -/
def Canonical (l : List Nat) : Prop :=
  l ≠ [] ∧ (l.getLast? = some 0 → l = [0])

/-- The `while value > 0 { push(value % base); value /= base; }` loop used by
`convert_from_u128` and by the single-digit fast path; also the mathematical
little-endian base-`base` representation.  The loop only terminates for
`base ≥ 2`, which every caller guarantees (bases are pre-validated). -/
def toDigitsLoop (base n : Nat) : List Nat :=
  if h : 2 ≤ base ∧ 0 < n then
    (n % base) :: toDigitsLoop base (n / base)
  else []
termination_by n
decreasing_by exact Nat.div_lt_self h.2 h.1

/-- Canonical representation of a value, `[0]` for zero. -/
def repDigits (base n : Nat) : List Nat :=
  if n = 0 then [0] else toDigitsLoop base n

section CoreLemmas

theorem evalDigits_nil (b : Nat) : evalDigits b [] = 0 := rfl

theorem evalDigits_cons (b d : Nat) (ds : List Nat) :
    evalDigits b (d :: ds) = evalDigits b ds * b + d := rfl

theorem evalDigits_append (b : Nat) (l₁ l₂ : List Nat) :
    evalDigits b (l₁ ++ l₂) = evalDigits b l₁ + evalDigits b l₂ * b ^ l₁.length := by
  induction l₁ with
  | nil => simp [evalDigits]
  | cons d l ih =>
    simp only [List.cons_append, evalDigits_cons, ih, List.length_cons, pow_succ]
    ring

theorem evalDigits_eq_zero {b : Nat} (hb : 1 ≤ b) {l : List Nat}
    (h : evalDigits b l = 0) : ∀ d ∈ l, d = 0 := by
  induction l with
  | nil => simp
  | cons d ds ih =>
    rw [evalDigits_cons] at h
    have hd : d = 0 := by omega
    have hds : evalDigits b ds = 0 := by
      rcases Nat.mul_eq_zero.mp (by omega : evalDigits b ds * b = 0) with h' | h'
      · exact h'
      · omega
    intro x hx
    rcases List.mem_cons.mp hx with rfl | hx
    · exact hd
    · exact ih hds x hx

theorem getLast?_cons_ne_nil {α : Type} (d : α) {ds : List α} (h : ds ≠ []) :
    (d :: ds).getLast? = ds.getLast? := by
  cases ds with
  | nil => exact absurd rfl h
  | cons y t => exact List.getLast?_cons_cons

theorem evalDigits_pos {b : Nat} (hb : 1 ≤ b) {l : List Nat} {z : Nat}
    (hz : l.getLast? = some z) (h0 : z ≠ 0) : 0 < evalDigits b l := by
  have hne : l ≠ [] := by intro h; subst h; simp at hz
  have hzl : l.getLast hne = z := by
    rw [List.getLast?_eq_getLast l hne] at hz
    exact Option.some_inj.mp hz
  have hdec := List.dropLast_append_getLast hne
  have : evalDigits b l = evalDigits b l.dropLast + (l.getLast hne) * b ^ l.dropLast.length := by
    conv_lhs => rw [← hdec]
    rw [evalDigits_append]
    simp [evalDigits]
  rw [this, hzl]
  have : 0 < z * b ^ l.dropLast.length :=
    Nat.mul_pos (by omega) (Nat.pos_pow_of_pos _ (by omega))
  omega

theorem valFrom_acc (b : Nat) (a : Nat) (l : List Nat) :
    valFrom b a l = a * b ^ l.length + valFrom b 0 l := by
  induction l generalizing a with
  | nil => simp [valFrom]
  | cons d ds ih =>
    simp only [valFrom, List.foldl_cons] at *
    rw [ih (a * b + d), ih (0 * b + d), List.length_cons, pow_succ]
    ring

theorem valFrom_reverse (b : Nat) (l : List Nat) :
    valFrom b 0 l = evalDigits b l.reverse := by
  rw [evalDigits, List.foldr_reverse]
  rfl

theorem evalDigits_eq_valFrom_reverse (b : Nat) (l : List Nat) :
    evalDigits b l = valFrom b 0 l.reverse := by
  rw [valFrom_reverse, List.reverse_reverse]

theorem toDigitsLoop_zero (base : Nat) : toDigitsLoop base 0 = [] := by
  rw [toDigitsLoop]; simp

theorem toDigitsLoop_pos {base n : Nat} (hb : 2 ≤ base) (hn : 0 < n) :
    toDigitsLoop base n = (n % base) :: toDigitsLoop base (n / base) := by
  rw [toDigitsLoop]
  simp [hb, hn]

theorem toDigitsLoop_eval {base : Nat} (hb : 2 ≤ base) (n : Nat) :
    evalDigits base (toDigitsLoop base n) = n := by
  induction n using Nat.strong_induction_on with
  | _ n ih =>
    by_cases hn : 0 < n
    · rw [toDigitsLoop_pos hb hn, evalDigits_cons,
        ih (n / base) (Nat.div_lt_self hn (by omega))]
      have hdm := Nat.div_add_mod n base
      rw [Nat.mul_comm] at hdm
      omega
    · have hn0 : n = 0 := by omega
      subst hn0
      rw [toDigitsLoop_zero]
      rfl

theorem toDigitsLoop_lt {base : Nat} (hb : 2 ≤ base) (n : Nat) :
    ∀ d ∈ toDigitsLoop base n, d < base := by
  induction n using Nat.strong_induction_on with
  | _ n ih =>
    by_cases hn : 0 < n
    · rw [toDigitsLoop_pos hb hn]
      intro d hd
      rcases List.mem_cons.mp hd with rfl | hd
      · exact Nat.mod_lt _ (by omega)
      · exact ih (n / base) (Nat.div_lt_self hn (by omega)) d hd
    · have hn0 : n = 0 := by omega
      subst hn0
      rw [toDigitsLoop_zero]
      simp

theorem toDigitsLoop_ne_nil {base n : Nat} (hb : 2 ≤ base) (hn : 0 < n) :
    toDigitsLoop base n ≠ [] := by
  rw [toDigitsLoop_pos hb hn]
  simp

theorem toDigitsLoop_getLast {base : Nat} (hb : 2 ≤ base) (n : Nat) :
    ∀ z, (toDigitsLoop base n).getLast? = some z → z ≠ 0 := by
  induction n using Nat.strong_induction_on with
  | _ n ih =>
    intro z hz
    by_cases hn : 0 < n
    case neg =>
      have hn0 : n = 0 := by omega
      rw [hn0, toDigitsLoop_zero] at hz
      simp at hz
    rw [toDigitsLoop_pos hb hn] at hz
    by_cases hq : 0 < n / base
    · rw [getLast?_cons_ne_nil _ (toDigitsLoop_ne_nil hb hq)] at hz
      exact ih (n / base) (Nat.div_lt_self hn (by omega)) z hz
    · have hq0 : n / base = 0 := Nat.le_zero.mp (Nat.not_lt.mp hq)
      rw [hq0, toDigitsLoop_zero] at hz
      rw [List.getLast?_singleton] at hz
      have hz' : n % base = z := Option.some_inj.mp hz
      have hdm := Nat.div_add_mod n base
      rw [hq0, Nat.mul_zero, Nat.zero_add] at hdm
      omega

theorem repDigits_canonical {base : Nat} (hb : 2 ≤ base) (n : Nat) :
    Canonical (repDigits base n) := by
  unfold repDigits
  by_cases hn : n = 0
  · simp [hn, Canonical]
  · simp only [hn, if_false]
    refine ⟨toDigitsLoop_ne_nil hb (by omega), fun h => ?_⟩
    exact absurd rfl (toDigitsLoop_getLast hb n 0 h)

theorem repDigits_eval {base : Nat} (hb : 2 ≤ base) (n : Nat) :
    evalDigits base (repDigits base n) = n := by
  unfold repDigits
  by_cases hn : n = 0
  · simp [hn, evalDigits]
  · simp only [hn, if_false]
    exact toDigitsLoop_eval hb n

theorem repDigits_lt {base : Nat} (hb : 2 ≤ base) (n : Nat) :
    ∀ d ∈ repDigits base n, d < base := by
  unfold repDigits
  by_cases hn : n = 0
  · simp [hn]
    omega
  · simp only [hn, if_false]
    exact toDigitsLoop_lt hb n

/-- Uniqueness of canonical representations: a canonical digit sequence with
digits below the base is the canonical representation of its value. -/
theorem canonical_eq_repDigits {base : Nat} (hb : 2 ≤ base) :
    ∀ l : List Nat, Canonical l → (∀ d ∈ l, d < base) →
      l = repDigits base (evalDigits base l) := by
  intro l
  induction l with
  | nil => intro hc; exact absurd rfl hc.1
  | cons d ds ih =>
    intro hc hlt
    have hd : d < base := hlt d (List.mem_cons_self d ds)
    by_cases hds : ds = []
    · subst hds
      have hv : evalDigits base [d] = d := by simp [evalDigits]
      rw [hv]
      unfold repDigits
      by_cases hd0 : d = 0
      · simp [hd0]
      · simp only [hd0, if_false]
        rw [toDigitsLoop_pos hb (by omega), Nat.mod_eq_of_lt hd,
          Nat.div_eq_of_lt hd, toDigitsLoop_zero]
    · have hlast : (d :: ds).getLast? = ds.getLast? := getLast?_cons_ne_nil d hds
      have hlz : ds.getLast? ≠ some 0 := by
        intro h0
        have h1 := hc.2 (hlast ▸ h0)
        have h2 : ds = [] := by
          have := congrArg List.length h1
          simp at this
          exact this
        exact hds h2
      have hcds : Canonical ds := ⟨hds, fun h0 => absurd h0 hlz⟩
      obtain ⟨z, hz⟩ : ∃ z, ds.getLast? = some z := by
        rcases hx : ds.getLast? with _ | z
        · rw [List.getLast?_eq_getLast ds hds] at hx
          cases hx
        · exact ⟨z, rfl⟩
      have hzne : z ≠ 0 := by
        intro h0
        exact hlz (h0 ▸ hz)
      have hpos : 0 < evalDigits base ds := evalDigits_pos (by omega) hz hzne
      have hih := ih hcds (fun x hx => hlt x (List.mem_cons_of_mem d hx))
      rw [evalDigits_cons]
      set E := evalDigits base ds with hE
      have hvpos : 0 < E * base + d := by
        have : base ≤ E * base := Nat.le_mul_of_pos_left base hpos
        omega
      unfold repDigits
      simp only [Nat.ne_of_gt hvpos, if_false]
      rw [toDigitsLoop_pos hb hvpos]
      have hmod : (E * base + d) % base = d := by
        rw [Nat.mul_comm E base, Nat.mul_add_mod, Nat.mod_eq_of_lt hd]
      have hdiv : (E * base + d) / base = E := by
        rw [Nat.mul_comm E base, Nat.mul_add_div (by omega), Nat.div_eq_of_lt hd,
          Nat.add_zero]
      rw [hmod, hdiv]
      have : toDigitsLoop base E = ds := by
        have := hih
        unfold repDigits at this
        simp only [Nat.ne_of_gt hpos, if_false] at this
        exact this.symm
      rw [this]

end CoreLemmas

section TrimLemmas

theorem trimAux_nil : trimAux [] = [] := rfl

theorem trimAux_ne_nil : ∀ {m : List Nat}, m ≠ [] → trimAux m ≠ [] := by
  intro m
  induction m with
  | nil => intro h; exact absurd rfl h
  | cons x t ih =>
    intro _
    cases t with
    | nil => simp [trimAux]
    | cons y r =>
      show trimAux (x :: y :: r) ≠ []
      unfold trimAux
      by_cases hx : x = 0
      · simpa [hx] using ih (by simp)
      · simp [hx]

theorem trimAux_head_zero : ∀ {m : List Nat}, (trimAux m).head? = some 0 → trimAux m = [0] := by
  intro m
  induction m with
  | nil => intro h; simp [trimAux] at h
  | cons x t ih =>
    cases t with
    | nil =>
      intro h
      have hx0 : x = 0 := by simpa [trimAux] using h
      simp [trimAux, hx0]
    | cons y r =>
      show (trimAux (x :: y :: r)).head? = some 0 → _
      unfold trimAux
      by_cases hx : x = 0
      · simpa [hx] using ih
      · simp only [hx, if_false, List.head?_cons]
        intro h
        exact absurd (Option.some_inj.mp h) hx

theorem trimAux_valFrom (b : Nat) : ∀ m : List Nat, valFrom b 0 (trimAux m) = valFrom b 0 m := by
  intro m
  induction m with
  | nil => rfl
  | cons x t ih =>
    cases t with
    | nil => rfl
    | cons y r =>
      show valFrom b 0 (trimAux (x :: y :: r)) = _
      unfold trimAux
      by_cases hx : x = 0
      · simp only [hx, if_true]
        rw [ih]
        simp [valFrom]
      · simp [hx]

theorem trimAux_subset : ∀ m : List Nat, ∀ d ∈ trimAux m, d ∈ m := by
  intro m
  induction m with
  | nil => simp [trimAux]
  | cons x t ih =>
    cases t with
    | nil => simp [trimAux]
    | cons y r =>
      intro d hd
      unfold trimAux at hd
      by_cases hx : x = 0
      · simp only [hx, if_true] at hd
        exact List.mem_cons_of_mem _ (ih d hd)
      · simp only [hx, if_false] at hd
        exact hd

theorem trim_ne_nil {l : List Nat} (h : l ≠ []) : trim l ≠ [] := by
  unfold trim
  intro h0
  have := congrArg List.reverse h0
  rw [List.reverse_reverse] at this
  simp only [List.reverse_nil] at this
  exact trimAux_ne_nil (by simpa using h) this

theorem trim_canonical {l : List Nat} (h : l ≠ []) : Canonical (trim l) := by
  refine ⟨trim_ne_nil h, fun h0 => ?_⟩
  unfold trim at h0 ⊢
  rw [List.getLast?_reverse] at h0
  have := trimAux_head_zero h0
  rw [this]
  rfl

theorem trim_eval (b : Nat) (l : List Nat) : evalDigits b (trim l) = evalDigits b l := by
  unfold trim
  rw [← valFrom_reverse, trimAux_valFrom, valFrom_reverse, List.reverse_reverse]

theorem trim_subset {l : List Nat} : ∀ d ∈ trim l, d ∈ l := by
  intro d hd
  unfold trim at hd
  rw [List.mem_reverse] at hd
  have := trimAux_subset l.reverse d hd
  rwa [List.mem_reverse] at this

theorem trim_of_canonical {l : List Nat} (h : Canonical l) : trim l = l := by
  obtain ⟨hne, hlast⟩ := h
  unfold trim
  rcases hx : l.reverse with _ | ⟨z, t⟩
  · have := congrArg List.reverse hx
    rw [List.reverse_reverse] at this
    exact absurd this hne
  · cases t with
    | nil =>
      have : trimAux [z] = [z] := rfl
      rw [this, ← hx, List.reverse_reverse]
    | cons y r =>
      have hzlast : l.getLast? = some z := by
        rw [← List.reverse_reverse l, hx]
        rw [List.getLast?_reverse]
        rfl
      have hzne : z ≠ 0 := by
        intro h0
        subst h0
        have h1 := hlast hzlast
        rw [h1] at hx
        simp at hx
      show (trimAux (z :: y :: r)).reverse = l
      unfold trimAux
      simp only [hzne, if_false]
      rw [← hx, List.reverse_reverse]

/-- The workhorse: trimming any nonempty digit sequence with digits below the
base yields the canonical representation of its value. -/
theorem trim_eq_repDigits {base : Nat} (hb : 2 ≤ base) {l : List Nat}
    (hne : l ≠ []) (hlt : ∀ d ∈ l, d < base) :
    trim l = repDigits base (evalDigits base l) := by
  have h1 := canonical_eq_repDigits hb (trim l) (trim_canonical hne)
    (fun d hd => hlt d (trim_subset d hd))
  rw [trim_eval] at h1
  exact h1

end TrimLemmas

/-!
## Reference converter (`src/baseline.rs`)

One pass of the long-division loop scans the current sequence from most- to
least-significant digit (`current.iter().rev()`), pushing quotient digits
into `next_current` (suppressing leading zeros) and keeping a running
remainder `carry`.
-/

/-- The per-digit step of a division pass:
`value = carry * from_base + digit; quotient = value / to_base;
carry = value % to_base;
if !next_current.is_empty() || quotient != 0 { next_current.push(quotient) }`. -/
def passStep (fb tb : Nat) (st : List Nat × Nat) (d : Nat) : List Nat × Nat :=
  let value := st.2 * fb + d
  let quotient := value / tb
  (if st.1 = [] ∧ quotient = 0 then st.1 else st.1 ++ [quotient], value % tb)

/-- One full pass of the `while` loop of `baseline::convert_base`: the scan
over `current.iter().rev()`.  Returns `next_current` (most-significant digit
first, i.e. before the `next_current.reverse()` of the source) and `carry`. -/
def divPass (fb tb : Nat) (current : List Nat) : List Nat × Nat :=
  current.reverse.foldl (passStep fb tb) ([], 0)

/-- Ghost function: the unsuppressed quotient digits of a pass over a
most-significant-first digit list with incoming carry `c`. -/
def quotList (fb tb : Nat) : Nat → List Nat → List Nat
  | _, [] => []
  | c, d :: r => ((c * fb + d) / tb) :: quotList fb tb ((c * fb + d) % tb) r

/-- Ghost function: the final carry of a pass over a most-significant-first
digit list with incoming carry `c`. -/
def carryOut (fb tb : Nat) : Nat → List Nat → Nat
  | c, [] => c
  | c, d :: r => carryOut fb tb ((c * fb + d) % tb) r

section PassLemmas

variable {fb tb : Nat}

theorem quotList_cons (c d : Nat) (r : List Nat) :
    quotList fb tb c (d :: r) =
      ((c * fb + d) / tb) :: quotList fb tb ((c * fb + d) % tb) r := rfl

theorem carryOut_cons (c d : Nat) (r : List Nat) :
    carryOut fb tb c (d :: r) = carryOut fb tb ((c * fb + d) % tb) r := rfl

theorem foldl_passStep (m : List Nat) : ∀ (acc : List Nat) (c : Nat),
    m.foldl (passStep fb tb) (acc, c) =
      (if acc = [] then (quotList fb tb c m).dropWhile (· == 0)
       else acc ++ quotList fb tb c m,
       carryOut fb tb c m) := by
  induction m with
  | nil =>
    intro acc c
    by_cases h : acc = [] <;> simp [h, quotList, carryOut]
  | cons d r ih =>
    intro acc c
    rw [List.foldl_cons]
    by_cases hacc : acc = []
    · subst hacc
      by_cases hq : (c * fb + d) / tb = 0
      · have hstep : passStep fb tb ([], c) d = ([], (c * fb + d) % tb) := by
          unfold passStep
          simp [hq]
        rw [hstep, ih [] _]
        simp only [if_pos rfl]
        rw [quotList_cons, carryOut_cons, List.dropWhile_cons]
        simp [hq]
      · have hstep : passStep fb tb ([], c) d =
            ([(c * fb + d) / tb], (c * fb + d) % tb) := by
          unfold passStep
          simp [hq]
        rw [hstep, ih _ _]
        rw [if_neg (by simp : ¬([(c * fb + d) / tb] = [])), if_pos rfl]
        rw [quotList_cons, carryOut_cons, List.dropWhile_cons]
        simp [hq]
    · have hstep : passStep fb tb (acc, c) d =
          (acc ++ [(c * fb + d) / tb], (c * fb + d) % tb) := by
        unfold passStep
        simp [hacc]
      rw [hstep, ih _ _]
      rw [if_neg (by simp : ¬(acc ++ [(c * fb + d) / tb] = [])), if_neg hacc]
      rw [quotList_cons, carryOut_cons]
      simp

theorem quotList_length (m : List Nat) : ∀ c, (quotList fb tb c m).length = m.length := by
  induction m with
  | nil => intro c; rfl
  | cons d r ih => intro c; simp [quotList, ih]

theorem carryOut_eq (htb : 1 ≤ tb) (m : List Nat) :
    ∀ c, c < tb → carryOut fb tb c m = valFrom fb c m % tb := by
  induction m with
  | nil =>
    intro c hc
    exact (Nat.mod_eq_of_lt hc).symm
  | cons d r ih =>
    intro c hc
    unfold carryOut
    rw [ih _ (Nat.mod_lt _ (by omega))]
    show _ = valFrom fb c (d :: r) % tb
    unfold valFrom
    rw [List.foldl_cons]
    show valFrom fb ((c * fb + d) % tb) r % tb = valFrom fb (c * fb + d) r % tb
    set v := c * fb + d
    rw [valFrom_acc fb v r, valFrom_acc fb (v % tb) r]
    have hv := Nat.div_add_mod v tb
    set B := fb ^ r.length
    set W := valFrom fb 0 r
    calc (v % tb * B + W) % tb
        = (v % tb * B + W + tb * (v / tb * B)) % tb := by
          rw [Nat.add_mul_mod_self_left]
      _ = (v * B + W) % tb := by
          congr 1
          have : v * B = (tb * (v / tb) + v % tb) * B := by rw [hv]
          rw [this]
          ring

theorem quotList_val (htb : 1 ≤ tb) (m : List Nat) :
    ∀ c, c < tb → valFrom fb 0 (quotList fb tb c m) = valFrom fb c m / tb := by
  induction m with
  | nil =>
    intro c hc
    show 0 = c / tb
    rw [Nat.div_eq_of_lt hc]
  | cons d r ih =>
    intro c hc
    unfold quotList
    set v := c * fb + d with hvdef
    show valFrom fb 0 ((v / tb) :: quotList fb tb (v % tb) r) = valFrom fb c (d :: r) / tb
    have h1 : valFrom fb 0 ((v / tb) :: quotList fb tb (v % tb) r) =
        valFrom fb (v / tb) (quotList fb tb (v % tb) r) := by
      unfold valFrom
      rw [List.foldl_cons]
      simp
    rw [h1, valFrom_acc, quotList_length, ih _ (Nat.mod_lt _ (by omega))]
    have h2 : valFrom fb c (d :: r) = valFrom fb v r := by
      unfold valFrom
      rw [List.foldl_cons]
    rw [h2, valFrom_acc fb v r, valFrom_acc fb (v % tb) r]
    have hv := Nat.div_add_mod v tb
    set B := fb ^ r.length
    set W := valFrom fb 0 r
    calc v / tb * B + (v % tb * B + W) / tb
        = (v % tb * B + W) / tb + v / tb * B := by ring
      _ = (v % tb * B + W + tb * (v / tb * B)) / tb := by
          rw [Nat.add_mul_div_left _ _ (by omega : 0 < tb)]
      _ = (v * B + W) / tb := by
          congr 1
          have : v * B = (tb * (v / tb) + v % tb) * B := by rw [hv]
          rw [this]
          ring

theorem dropWhile_zero_val (b : Nat) (l : List Nat) :
    valFrom b 0 (l.dropWhile (· == 0)) = valFrom b 0 l := by
  induction l with
  | nil => rfl
  | cons x r ih =>
    rw [List.dropWhile_cons]
    by_cases hx : x = 0
    · subst hx
      simp only [beq_self_eq_true, if_true]
      rw [ih]
      show valFrom b 0 r = valFrom b (0 * b + 0) r
      norm_num
    · simp [hx]

theorem dropWhile_zero_head (l : List Nat) :
    (l.dropWhile (· == 0)).head? ≠ some 0 := by
  induction l with
  | nil => simp
  | cons x r ih =>
    rw [List.dropWhile_cons]
    by_cases hx : x = 0
    · simpa [hx] using ih
    · simp [hx]

theorem quotList_all_zero (m : List Nat) (hm : ∀ d ∈ m, d = 0) :
    (quotList fb tb 0 m).dropWhile (· == 0) = [] := by
  induction m with
  | nil => rfl
  | cons d r ih =>
    have hd : d = 0 := hm d (List.mem_cons_self d r)
    unfold quotList
    subst hd
    simp only [Nat.mul_zero, Nat.zero_mul, Nat.add_zero, Nat.zero_div,
      Nat.zero_mod, List.dropWhile_cons, beq_self_eq_true, if_true]
    exact ih (fun x hx => hm x (List.mem_cons_of_mem _ hx))

end PassLemmas

section DivPassLemmas

variable {fb tb : Nat}

theorem divPass_eq (cur : List Nat) :
    divPass fb tb cur =
      ((quotList fb tb 0 cur.reverse).dropWhile (· == 0), carryOut fb tb 0 cur.reverse) := by
  unfold divPass
  rw [foldl_passStep]
  simp

theorem divPass_carry (htb : 1 ≤ tb) (cur : List Nat) :
    (divPass fb tb cur).2 = evalDigits fb cur % tb := by
  rw [divPass_eq]
  show carryOut fb tb 0 cur.reverse = _
  rw [carryOut_eq htb _ 0 (by omega), valFrom_reverse, List.reverse_reverse]

theorem divPass_eval (htb : 1 ≤ tb) (cur : List Nat) :
    evalDigits fb ((divPass fb tb cur).1.reverse) = evalDigits fb cur / tb := by
  rw [divPass_eq]
  show evalDigits fb (((quotList fb tb 0 cur.reverse).dropWhile (· == 0)).reverse) = _
  rw [← valFrom_reverse, dropWhile_zero_val, quotList_val htb _ 0 (by omega),
    valFrom_reverse, List.reverse_reverse]

theorem divPass_good (cur : List Nat) :
    ((divPass fb tb cur).1.reverse).getLast? ≠ some 0 := by
  rw [divPass_eq]
  show (((quotList fb tb 0 cur.reverse).dropWhile (· == 0)).reverse).getLast? ≠ some 0
  rw [List.getLast?_reverse]
  exact dropWhile_zero_head _

theorem divPass_nil_of_zero (hfb : 1 ≤ fb) {cur : List Nat}
    (h : evalDigits fb cur = 0) : (divPass fb tb cur).1 = [] := by
  rw [divPass_eq]
  show (quotList fb tb 0 cur.reverse).dropWhile (· == 0) = []
  apply quotList_all_zero
  intro d hd
  exact evalDigits_eq_zero hfb h d (List.mem_reverse.mp hd)

theorem divPass_measure (hfb : 2 ≤ fb) (htb : 2 ≤ tb) {cur : List Nat}
    (hne : cur ≠ []) :
    2 * evalDigits fb ((divPass fb tb cur).1.reverse) +
        (if (divPass fb tb cur).1.reverse = [] then 0 else 1) <
      2 * evalDigits fb cur + (if cur = [] then 0 else 1) := by
  simp only [if_neg hne]
  by_cases hV : evalDigits fb cur = 0
  · have h1 : (divPass fb tb cur).1 = [] := divPass_nil_of_zero (by omega) hV
    rw [h1]
    simp [hV, evalDigits]
  · have h1 : evalDigits fb ((divPass fb tb cur).1.reverse) =
        evalDigits fb cur / tb := divPass_eval (by omega) cur
    have h2 : evalDigits fb cur / tb < evalDigits fb cur :=
      Nat.div_lt_self (by omega) (by omega)
    rw [h1]
    by_cases h3 : (divPass fb tb cur).1.reverse = [] <;> simp [h3] <;> omega

end DivPassLemmas

/-- The `while !current.is_empty() && !(current.len() == 1 && current[0] == 0)`
loop of `baseline::convert_base`: returns the list of carries pushed into
`result` (least-significant first; the final trim is applied by the caller).
The loop only terminates for bases ≥ 2, which `convert_base` pre-validates;
outside that range the embedding returns `[]`. -/
def loopDiv (fb tb : Nat) (current : List Nat) : List Nat :=
  if h0 : current = [] ∨ current = [0] then []
  else if h : 2 ≤ fb ∧ 2 ≤ tb then
    (divPass fb tb current).2 :: loopDiv fb tb (divPass fb tb current).1.reverse
  else []
termination_by 2 * evalDigits fb current + (if current = [] then 0 else 1)
decreasing_by
  exact divPass_measure h.1 h.2 (fun hc => h0 (Or.inl hc))

namespace Baseline

/-- Rust `baseline::convert_base` (src/baseline.rs, lines 2–48). -/
def convert_base (digits : List Nat) (from_base to_base : Nat) : ConvResult :=
  if from_base < 2 ∨ 65536 < from_base ∨ to_base < 2 ∨ 65536 < to_base then
    .error .invalidBase
  else if from_base = to_base then .ok digits
  else if digits = [] ∨ digits = [0] then .ok [0]
  else if digits.any (fun d => decide (from_base ≤ d)) then .error .invalidDigit
  else .ok (trim (loopDiv from_base to_base digits))

end Baseline

section LoopDivLemmas

variable {fb tb : Nat}

theorem loopDiv_eq_toDigits (hfb : 2 ≤ fb) (htb : 2 ≤ tb) :
    ∀ l : List Nat, (l = [] ∨ l.getLast? ≠ some 0) →
      loopDiv fb tb l = toDigitsLoop tb (evalDigits fb l) := by
  suffices H : ∀ V : Nat, ∀ l : List Nat, evalDigits fb l = V →
      (l = [] ∨ l.getLast? ≠ some 0) → loopDiv fb tb l = toDigitsLoop tb V by
    intro l hgood
    exact H (evalDigits fb l) l rfl hgood
  intro V
  induction V using Nat.strong_induction_on with
  | _ V ih =>
    intro l hVl hgood
    by_cases hne : l = []
    · subst hne
      rw [loopDiv, dif_pos (Or.inl rfl), ← hVl, evalDigits_nil, toDigitsLoop_zero]
    · have hgood : l.getLast? ≠ some 0 := hgood.resolve_left hne
      have hn0 : l ≠ [0] := by
        intro h
        subst h
        simp [List.getLast?_singleton] at hgood
      obtain ⟨z, hz⟩ : ∃ z, l.getLast? = some z := by
        rcases hx : l.getLast? with _ | z
        · rw [List.getLast?_eq_getLast l hne] at hx
          cases hx
        · exact ⟨z, rfl⟩
      have hzne : z ≠ 0 := fun h0 => hgood (h0 ▸ hz)
      have hV : 0 < V := hVl ▸ evalDigits_pos (by omega) hz hzne
      rw [loopDiv]
      rw [dif_neg (by simp [hne, hn0]), dif_pos ⟨hfb, htb⟩]
      have hnext : evalDigits fb ((divPass fb tb l).1.reverse) = V / tb := by
        rw [divPass_eval (by omega), hVl]
      rw [ih (V / tb) (Nat.div_lt_self hV (by omega)) _ hnext
        (Or.inr (divPass_good l)), divPass_carry (by omega), hVl,
        toDigitsLoop_pos htb hV]

theorem loopDiv_spec (hfb : 2 ≤ fb) (htb : 2 ≤ tb) {l : List Nat}
    (hne : l ≠ []) (hn0 : l ≠ [0]) :
    trim (loopDiv fb tb l) = repDigits tb (evalDigits fb l) := by
  rw [loopDiv, dif_neg (by simp [hne, hn0]), dif_pos ⟨hfb, htb⟩]
  by_cases hV : evalDigits fb l = 0
  · have h1 : (divPass fb tb l).1 = [] := divPass_nil_of_zero (by omega) hV
    rw [divPass_carry (by omega), hV, h1, List.reverse_nil, loopDiv,
      dif_pos (Or.inl rfl), Nat.zero_mod]
    rfl
  · have hnext : evalDigits fb ((divPass fb tb l).1.reverse) =
        evalDigits fb l / tb := divPass_eval (by omega) l
    rw [loopDiv_eq_toDigits hfb htb _ (Or.inr (divPass_good l)), hnext,
      divPass_carry (by omega)]
    rw [← toDigitsLoop_pos htb (by omega)]
    have : toDigitsLoop tb (evalDigits fb l) = repDigits tb (evalDigits fb l) := by
      unfold repDigits
      rw [if_neg hV]
    rw [this]
    exact trim_of_canonical (repDigits_canonical htb _)

/-- Characterization of the reference converter on valid inputs: it returns
the canonical base-`to_base` representation of the input's value. -/
theorem baseline_spec {digits : List Nat} {fb tb : Nat}
    (hfb : 2 ≤ fb) (hfb' : fb ≤ 65536) (htb : 2 ≤ tb) (htb' : tb ≤ 65536)
    (hne : fb ≠ tb) (hd : ∀ d ∈ digits, d < fb) :
    Baseline.convert_base digits fb tb = .ok (repDigits tb (evalDigits fb digits)) := by
  unfold Baseline.convert_base
  rw [if_neg (by omega), if_neg hne]
  by_cases h0 : digits = [] ∨ digits = [0]
  · rw [if_pos h0]
    rcases h0 with rfl | rfl
    · rw [evalDigits_nil]
      rfl
    · have h00 : evalDigits fb [0] = 0 := by simp [evalDigits]
      rw [h00]
      rfl
  · rw [if_neg h0]
    have hany : digits.any (fun d => decide (fb ≤ d)) = false := by
      rw [List.any_eq_false]
      intro d hdm
      simpa using Nat.not_le.mpr (hd d hdm)
    rw [hany]
    simp only [Bool.false_eq_true, if_false]
    rw [loopDiv_spec hfb htb (fun h => h0 (Or.inl h)) (fun h => h0 (Or.inr h))]

end LoopDivLemmas

/-!
## Utilities (`src/utils.rs`)
-/

/-- Rust `is_power_of_two`: `n > 0 && (n & (n - 1)) == 0`. -/
def is_power_of_two (n : Nat) : Bool :=
  decide (0 < n) && (n &&& (n - 1)) == 0

/-- Rust `u64::trailing_zeros` (64 for the argument 0). -/
def trailingZeros (n : Nat) : Nat :=
  if n = 0 then 64
  else if n % 2 = 1 then 0
  else trailingZeros (n / 2) + 1
termination_by n
decreasing_by exact Nat.div_lt_self (by omega) (by omega)

/-- Rust `log2_of_power_of_two`: `n.trailing_zeros()`. -/
def log2_of_power_of_two (n : Nat) : Nat := trailingZeros n

/-!
## Optimized converter (`src/optimized.rs`)
-/

namespace Optimized

/-- The `while buffer_bits >= to_shift` emission loop of
`convert_power_of_two_optimized`.  State: `(result, buffer, buffer_bits)`.
The source's `1u64 << to_shift` never overflows since `to_shift ≤ 16`.
The loop only terminates for `to_shift ≥ 1` (`to_base ≥ 2`), which the
caller guarantees. -/
def emitBits (ts : Nat) (st : List Nat × Nat × Nat) : List Nat × Nat × Nat :=
  if h : ts ≠ 0 ∧ ts ≤ st.2.2 then
    emitBits ts (st.1 ++ [st.2.1 &&& ((1 <<< ts) - 1)], st.2.1 >>> ts, st.2.2 - ts)
  else st
termination_by st.2.2
decreasing_by omega

/-- Body of the `for &digit in digits` loop of
`convert_power_of_two_optimized`:
`buffer |= digit << buffer_bits; buffer_bits += from_shift;` then emit. -/
def p2Step (fs ts : Nat) (st : List Nat × Nat × Nat) (d : Nat) : List Nat × Nat × Nat :=
  emitBits ts (st.1, st.2.1 ||| (d <<< st.2.2), st.2.2 + fs)

/-- Rust `convert_power_of_two_optimized` (src/optimized.rs, lines 63–99).
`total_bits`/`output_len` of the source only pre-size the result vector and
do not affect the emitted digits, so they are not modelled. -/
def convert_power_of_two_optimized (digits : List Nat) (from_base to_base : Nat) : List Nat :=
  let fs := log2_of_power_of_two from_base
  let ts := log2_of_power_of_two to_base
  let st := digits.foldl (p2Step fs ts) ([], 0, 0)
  trim (if 0 < st.2.2 then st.1 ++ [st.2.1] else st.1)

/-- Rust `u128::MAX`. -/
def U128_MAX : Nat := 2 ^ 128 - 1

/-- The accumulation loop of `try_convert_to_u128`, over the digits from
most- to least-significant (`digits.iter().rev()`), with both overflow
checks.  Thanks to the checks the `u128` arithmetic is exact, so `Nat`
arithmetic is a faithful embedding. -/
def tryU128Go (base : Nat) : List Nat → Nat → Option Nat
  | [], result => some result
  | d :: rest, result =>
    if U128_MAX / base < result then none
    else if U128_MAX - d < result * base then none
    else tryU128Go base rest (result * base + d)

/-- Rust `try_convert_to_u128` (src/optimized.rs, lines 101–128). -/
def try_convert_to_u128 (digits : List Nat) (base : Nat) : Option Nat :=
  if 20 < digits.length then none
  else tryU128Go base digits.reverse 0

/-- Rust `convert_from_u128` (src/optimized.rs, lines 130–144). -/
def convert_from_u128 (num : Nat) (base : Nat) : List Nat :=
  if num = 0 then [0] else toDigitsLoop base num

/-- The inner `while n % p == 0 { n /= p; count += 1 }` loop of
`prime_factorization`, returning `(count, reduced n)`.  The guards `2 ≤ p`
and `0 < n` hold at every call site and make the recursion well-founded. -/
def extractFactor (p n : Nat) : Nat × Nat :=
  if h : 2 ≤ p ∧ 0 < n ∧ n % p = 0 then
    let r := extractFactor p (n / p)
    (r.1 + 1, r.2)
  else (0, n)
termination_by n
decreasing_by exact Nat.div_lt_self h.2.1 h.1

theorem extractFactor_le (p n : Nat) : (extractFactor p n).2 ≤ n := by
  induction n using Nat.strong_induction_on with
  | _ n ih =>
    rw [extractFactor]
    split
    case isTrue h =>
      exact le_trans (ih (n / p) (Nat.div_lt_self h.2.1 h.1)) (Nat.div_le_self n p)
    case isFalse h => exact le_refl n

/-- The `while p * p <= n` trial-division loop of `prime_factorization`,
over odd candidate divisors `p = 3, 5, 7, …`. -/
def oddFactorLoop (p n : Nat) (acc : List (Nat × Nat)) : List (Nat × Nat) × Nat :=
  if hpp : p * p ≤ n then
    if n % p = 0 then
      let e := extractFactor p n
      oddFactorLoop (p + 2) e.2 (acc ++ [(p, e.1)])
    else oddFactorLoop (p + 2) n acc
  else (acc, n)
termination_by n + 1 - p
decreasing_by
  · have h1 : (extractFactor p n).2 ≤ n := extractFactor_le p n
    have h2 : p ≤ n := by
      rcases Nat.eq_zero_or_pos p with h | h
      · omega
      · calc p ≤ p * p := Nat.le_mul_of_pos_left p h
          _ ≤ n := hpp
    omega
  · have h2 : p ≤ n := by
      rcases Nat.eq_zero_or_pos p with h | h
      · omega
      · calc p ≤ p * p := Nat.le_mul_of_pos_left p h
          _ ≤ n := hpp
    omega

/-- Lexicographic order on `(u64, u32)` pairs: the derived `Ord` used by
Rust's `factors.sort()`. -/
def pairLe (a b : Nat × Nat) : Prop :=
  a.1 < b.1 ∨ (a.1 = b.1 ∧ a.2 ≤ b.2)

instance : DecidableRel pairLe := fun a b =>
  inferInstanceAs (Decidable (_ ∨ _))

/-- Rust `prime_factorization` (src/optimized.rs, lines 188–216).  The
`factors.sort()` of the source is a stable sort by `pairLe`, embedded as
insertion sort (extensionally the same function). -/
def prime_factorization (n : Nat) : List (Nat × Nat) :=
  let s1 : List (Nat × Nat) × Nat :=
    if n % 2 = 0 then ([(2, trailingZeros n)], n >>> trailingZeros n) else ([], n)
  let s2 := oddFactorLoop 3 s1.2 s1.1
  let factors := if 1 < s2.2 then s2.1 ++ [(s2.2, 1)] else s2.1
  factors.insertionSort pairLe

/-- Rust `get_factorization` (src/optimized.rs, lines 9–23): the mutex-guarded
get-or-compute cache always returns `prime_factorization n`; the cache
itself is not observable through the conversion API. -/
def get_factorization (n : Nat) : List (Nat × Nat) := prime_factorization n

/-- Rust `find_aligned_exponents` (src/optimized.rs, lines 146–186), including
the quick table of "common aligned bases" and the factorization-guarded
search with `MAX_EXPONENT = 10`.  `u64::pow` cannot overflow before the
search returns at `a = b = 1` whenever it is reached (the factorization
guard forces `from_base = to_base` there), so `Nat.pow` is faithful. -/
def find_aligned_exponents (from_base to_base : Nat) : Option (Nat × Nat) :=
  match from_base, to_base with
  | 4, 16 | 16, 4 => some (2, 1)
  | 8, 64 | 64, 8 => some (2, 1)
  | 27, 3 | 3, 27 => some (1, 3)
  | 16, 2 | 2, 16 => some (1, 4)
  | 32, 2 | 2, 32 => some (1, 5)
  | fb, tb =>
    if get_factorization fb ≠ get_factorization tb then none
    else
      (List.range 10).findSome? fun a0 =>
        let a := a0 + 1
        let from_power := fb ^ a
        (List.range 10).findSome? fun b0 =>
          let b := b0 + 1
          if tb ^ b = from_power then some (a, b) else none

/-- The `from_powers` vector of `convert_aligned_bases`: starts with `1`,
then `from_powers[i-1] * from_base` for `i in 1..exp_a`. -/
def powersList (from_base exp_a : Nat) : List Nat :=
  1 :: (List.range (exp_a - 1)).map (fun i => from_base ^ (i + 1))

/-- Rust's `slice::chunks(k)`: consecutive chunks of `k` elements, the last
possibly shorter.  (`chunks(0)` panics; the guard keeps the embedding
total.) -/
def chunksOf (k : Nat) (l : List Nat) : List (List Nat) :=
  if h : l = [] ∨ k = 0 then [] else l.take k :: chunksOf k (l.drop k)
termination_by l.length
decreasing_by
  rw [List.length_drop]
  have h1 : l ≠ [] := fun hh => h (Or.inl hh)
  have h2 : k ≠ 0 := fun hh => h (Or.inr hh)
  have : 0 < l.length := List.length_pos.mpr h1
  omega

/-- Per-chunk local value:
`for (i, &digit) in chunk.iter().enumerate() { value += digit * from_powers[i] }`. -/
def chunkValue (chunk powers : List Nat) : Nat :=
  (chunk.zip powers).foldl (fun v dp => v + dp.1 * dp.2) 0

/-- Rust `for _ in 0..exp_b { result.push(value % to_base); value /= to_base; }`. -/
def emitDigits (tb eb : Nat) (st : List Nat × Nat) : List Nat × Nat :=
  (List.range eb).foldl (fun st _ => (st.1 ++ [st.2 % tb], st.2 / tb)) st

/-- Rust `convert_aligned_bases` (src/optimized.rs, lines 218–251).  For every
reachable exponent pair `exp_a ≤ 2`, chunk values stay below `65536²`, far
from the `u128` range, so `Nat` arithmetic is faithful. -/
def convert_aligned_bases (digits : List Nat) (from_base to_base exp_a exp_b : Nat) :
    List Nat :=
  let powers := powersList from_base exp_a
  let result := (chunksOf exp_a digits).foldl
    (fun result chunk => (emitDigits to_base exp_b (result, chunkValue chunk powers)).1) []
  trim result

/-- Descending remainder processing of `convert_general_optimized_tricks`:
`for _ in 0..rem { i -= 1; process(current[i]) }`, and also the
`for i in (0..len).rev()` loop of the small-array branch. -/
def gDown (fb tb : Nat) (cur : List Nat) : Nat → List Nat × Nat → List Nat × Nat
  | 0, st => st
  | i + 1, st => gDown fb tb cur i (passStep fb tb st (cur.getD i 0))

/-- One unrolled block: `process_digit!(0); …; process_digit!(w-1)` at base
index `i` — the digits are processed at ascending indices `i, i+1, …`. -/
def gBlock (fb tb : Nat) (cur : List Nat) (i w : Nat) (st : List Nat × Nat) :
    List Nat × Nat :=
  (List.range w).foldl (fun st k => passStep fb tb st (cur.getD (i + k) 0)) st

/-- The `for _ in 0..chunks { i -= w; block }` loop (w = 16 or 4). -/
def gChunks (fb tb w : Nat) (cur : List Nat) : Nat → Nat → List Nat × Nat → List Nat × Nat
  | 0, _, st => st
  | c + 1, i, st => gChunks fb tb w cur c (i - w) (gBlock fb tb cur (i - w) w st)

/-- One pass of the `while` loop of `convert_general_optimized_tricks`
(src/optimized.rs, lines 345–448): 16-way unrolling for `len ≥ 16`, 4-way
for `len ≥ 4`, plain descending scan otherwise.  Returns `next_current`
(before the source's final `reverse`) and `carry`. -/
def generalPass (fb tb : Nat) (cur : List Nat) : List Nat × Nat :=
  let L := cur.length
  if 16 ≤ L then
    gDown fb tb cur (L % 16) (gChunks fb tb 16 cur (L / 16) L ([], 0))
  else if 4 ≤ L then
    gDown fb tb cur (L % 4) (gChunks fb tb 4 cur (L / 4) L ([], 0))
  else
    gDown fb tb cur L ([], 0)

/-- The outer `while !current.is_empty() && !(…== [0])` loop of the general
path.  The scrambled processing order of `generalPass` makes this loop
cycle on some inputs, so it is embedded with fuel; `none` = fuel exhausted
(the Rust loop has not terminated within `fuel` iterations). -/
def generalLoop (fb tb : Nat) : Nat → List Nat → Option (List Nat)
  | 0, cur => if cur = [] ∨ cur = [0] then some [] else none
  | fuel + 1, cur =>
    if cur = [] ∨ cur = [0] then some []
    else
      (generalLoop fb tb fuel (generalPass fb tb cur).1.reverse).map
        (fun rest => (generalPass fb tb cur).2 :: rest)

/-- One pass of `convert_large_number_chunked`'s `while` loop:
`for chunk in current.chunks(64) { for &digit in chunk.iter().rev() { … } }`. -/
def chunkedPass (fb tb : Nat) (cur : List Nat) : List Nat × Nat :=
  (chunksOf 64 cur).foldl
    (fun st chunk => chunk.reverse.foldl (passStep fb tb) st) ([], 0)

/-- Outer loop of `convert_large_number_chunked`, with fuel for the same
reason as `generalLoop`. -/
def chunkedLoop (fb tb : Nat) : Nat → List Nat → Option (List Nat)
  | 0, cur => if cur = [] ∨ cur = [0] then some [] else none
  | fuel + 1, cur =>
    if cur = [] ∨ cur = [0] then some []
    else
      (chunkedLoop fb tb fuel (chunkedPass fb tb cur).1.reverse).map
        (fun rest => (chunkedPass fb tb cur).2 :: rest)

/-- Rust `convert_large_number_chunked` (src/optimized.rs, lines 459–499).  The
`processed` counter of the source is unused. -/
def convert_large_number_chunked (digits : List Nat) (fb tb fuel : Nat) :
    Option (List Nat) :=
  (chunkedLoop fb tb fuel digits).map trim

/-- Rust `convert_general_optimized_tricks` (src/optimized.rs, lines 307–456).
`estimated_output_size` (Trick 3) only pre-sizes the result vector. -/
def convert_general_optimized_tricks (digits : List Nat) (fb tb fuel : Nat) :
    Option (List Nat) :=
  if digits.length = 1 then
    let digit := digits.headD 0
    if digit < tb then some [digit]
    else some (toDigitsLoop tb digit)
  else if 2000 < digits.length ∧ tb < fb then
    convert_large_number_chunked digits fb tb fuel
  else
    (generalLoop fb tb fuel digits).map trim

/-- Rust `optimized::convert_base` (src/optimized.rs, lines 25–61): validation,
shortcuts and the four-strategy dispatch. -/
def convert_base (digits : List Nat) (from_base to_base : Nat) (fuel : Nat) :
    Option ConvResult :=
  if from_base < 2 ∨ 65536 < from_base ∨ to_base < 2 ∨ 65536 < to_base then
    some (.error .invalidBase)
  else if from_base = to_base then some (.ok digits)
  else if digits = [] ∨ digits = [0] then some (.ok [0])
  else if digits.any (fun d => decide (from_base ≤ d)) then some (.error .invalidDigit)
  else if is_power_of_two from_base && is_power_of_two to_base then
    some (.ok (convert_power_of_two_optimized digits from_base to_base))
  else
    match try_convert_to_u128 digits from_base with
    | some num => some (.ok (convert_from_u128 num to_base))
    | none =>
      match find_aligned_exponents from_base to_base with
      | some (exp_a, exp_b) =>
        some (.ok (convert_aligned_bases digits from_base to_base exp_a exp_b))
      | none => (convert_general_optimized_tricks digits from_base to_base fuel).map .ok

end Optimized

/-!
## Shared concrete inputs for the findings below
-/

/-- Twentyone base-3 digits, all ones: more than 20 digits between bases 3 and 27,
so the `u128` fast path refuses it and the aligned-base path runs. -/
def ones21 : List Nat := List.replicate 21 1

/-- What `optimized::convert_base ones21 3 27` actually returns: the
aligned-base converter with the unsound exponent pair `(1, 3)` re-emits
every base-3 digit as three base-27 digits. -/
def ones21Out : List Nat := (List.replicate 20 [1, 0, 0]).flatten ++ [1]

/-- What converting `ones21Out` back from base 27 to base 3 returns. -/
def ones21RoundTrip : List Nat :=
  (List.replicate 20 [1, 0, 0, 0, 0, 0, 0, 0, 0]).flatten ++ [1]

section ConcreteEvaluations

set_option maxHeartbeats 2000000 in
theorem optimized_ones21_eval :
    Optimized.convert_base ones21 3 27 0 = some (.ok ones21Out) := by
  simp [ones21, ones21Out, Optimized.convert_base, Optimized.try_convert_to_u128,
    is_power_of_two, Optimized.find_aligned_exponents, Optimized.convert_aligned_bases,
    Optimized.chunksOf, Optimized.powersList, Optimized.chunkValue,
    Optimized.emitDigits, trim, trimAux, List.replicate,
    List.range_succ, List.zip_cons_cons, List.zip_nil_right, List.zip_nil_left]

theorem baseline_ones21_eval :
    Baseline.convert_base ones21 3 27 = .ok [13, 13, 13, 13, 13, 13, 13] := by
  rw [ones21,
    baseline_spec (by omega) (by omega) (by omega) (by omega) (by omega) (by decide)]
  have h : evalDigits 3 (List.replicate 21 1) = 5230176601 := by decide
  rw [h]
  simp [repDigits, toDigitsLoop]

set_option maxHeartbeats 4000000 in
set_option maxRecDepth 8000 in
theorem optimized_ones21Out_back_eval :
    Optimized.convert_base ones21Out 27 3 0 = some (.ok ones21RoundTrip) := by
  simp [ones21Out, ones21RoundTrip, Optimized.convert_base,
    Optimized.try_convert_to_u128, is_power_of_two,
    Optimized.find_aligned_exponents, Optimized.convert_aligned_bases,
    Optimized.chunksOf, Optimized.powersList, Optimized.chunkValue,
    Optimized.emitDigits, trim, trimAux, List.replicate,
    List.range_succ, List.zip_cons_cons, List.zip_nil_right, List.zip_nil_left]

end ConcreteEvaluations

/-!
## Claims
-/

/-- Claim C1: the optimized `convert_base` is byte-for-byte identical to the
reference converter on every valid input — REFUTED by the code.  On the
21-digit input `ones21` between bases 3 and 27 (explicitly within the
claim's scope) the aligned-base path uses the unsound exponent pair `(1,3)`
of `find_aligned_exponents` and returns a 61-digit sequence, while the
reference converter returns the correct 7-digit sequence `[13,…,13]`. -/
theorem claim_C1_refuted :
    Optimized.convert_base ones21 3 27 0 ≠ some (Baseline.convert_base ones21 3 27) := by
  rw [optimized_ones21_eval, baseline_ones21_eval]
  intro h
  injection h with h1
  injection h1 with h2
  exact absurd h2 (by decide)

/-- Claim C2: the optimized `convert_base` preserves the represented value —
REFUTED by the code.  On `ones21` (value `(3^21-1)/2 = 5230176601` in base 3)
the returned base-27 sequence has a different value. -/
theorem claim_C2_refuted :
    Optimized.convert_base ones21 3 27 0 = some (.ok ones21Out) ∧
      evalDigits 27 ones21Out ≠ evalDigits 3 ones21 := by
  refine ⟨optimized_ones21_eval, ?_⟩
  decide

/-- Claim C5: every pair returned by `find_aligned_exponents` satisfies
`from_base ^ a = to_base ^ b` — REFUTED by the code.  The quick table maps
both directions of each relation to the same pair, so `(3, 27)` answers
`(1, 3)` although `3^1 ≠ 27^3`. -/
theorem claim_C5_refuted :
    Optimized.find_aligned_exponents 3 27 = some (1, 3) ∧ 3 ^ 1 ≠ 27 ^ 3 := by
  exact ⟨rfl, by decide⟩

/-- Claim C6: `convert(convert(d, b1, b2), b2, b1)` equals the canonical form
of `d` — REFUTED by the code.  Round-tripping `ones21` through bases 3 and 27
returns a 181-digit sequence instead of `ones21` itself (which is already
canonical, so its canonical form is `trim ones21 = ones21`). -/
theorem claim_C6_refuted :
    Optimized.convert_base ones21 3 27 0 = some (.ok ones21Out) ∧
      Optimized.convert_base ones21Out 27 3 0 = some (.ok ones21RoundTrip) ∧
      ones21RoundTrip ≠ trim ones21 := by
  refine ⟨optimized_ones21_eval, optimized_ones21Out_back_eval, ?_⟩
  decide

/-- Claim C3 as stated is false: with `from_base == to_base` both converters
return the input unchanged *before* validating digits, so the invalid digit
`10` in base 10 is not reported. -/
theorem claim_C3_counterexample :
    Optimized.convert_base [10] 10 10 0 = some (.ok [10]) ∧
      Baseline.convert_base [10] 10 10 = .ok [10] := by
  exact ⟨rfl, rfl⟩

/-- Claim C3, amended: for `from_base ≠ to_base` (and bases in range), an
input containing a digit `≥ from_base` makes both the optimized and the
baseline converter fail with `InvalidDigit`; when `from_base == to_base`
the input is returned unchanged without digit validation. -/
theorem claim_C3_amended {digits : List Nat} {fb tb : Nat} (fuel : Nat)
    (h1 : 2 ≤ fb) (h2 : fb ≤ 65536) (h3 : 2 ≤ tb) (h4 : tb ≤ 65536)
    (hne : fb ≠ tb) (hbad : ∃ d ∈ digits, fb ≤ d) :
    Optimized.convert_base digits fb tb fuel = some (.error .invalidDigit) ∧
      Baseline.convert_base digits fb tb = .error .invalidDigit := by
  obtain ⟨d, hdm, hd⟩ := hbad
  have hne1 : digits ≠ [] := by
    intro h
    subst h
    simp at hdm
  have hne0 : digits ≠ [0] := by
    intro h
    subst h
    have : d = 0 := by simpa using hdm
    omega
  have hany : digits.any (fun d => decide (fb ≤ d)) = true := by
    rw [List.any_eq_true]
    exact ⟨d, hdm, by simpa using hd⟩
  constructor
  · unfold Optimized.convert_base
    rw [if_neg (by omega), if_neg hne, if_neg (by simp [hne1, hne0]), if_pos hany]
  · unfold Baseline.convert_base
    rw [if_neg (by omega), if_neg hne, if_neg (by simp [hne1, hne0]), if_pos hany]

/-- Witness for the amended C3 at a concrete input. -/
theorem claim_C3_amended_witness :
    Optimized.convert_base [0, 10] 10 2 0 = some (.error .invalidDigit) ∧
      Baseline.convert_base [0, 10] 10 2 = .error .invalidDigit :=
  claim_C3_amended 0 (by decide) (by decide) (by decide) (by decide) (by decide)
    ⟨10, by decide, by decide⟩

/-- Claim C4 as stated is false: with `from_base == to_base` the input is
returned unchanged before canonicalization, so a trailing-zero input comes
back non-canonical. -/
theorem claim_C4_counterexample :
    Optimized.convert_base [1, 0] 2 2 0 = some (.ok [1, 0]) ∧ ¬Canonical [1, 0] := by
  constructor
  · rfl
  · unfold Canonical
    decide

/-!
## The u128 fast path (claim C8)
-/

section U128Lemmas

theorem valFrom_le {b : Nat} (hb : 1 ≤ b) (a : Nat) (l : List Nat) :
    a ≤ valFrom b a l := by
  induction l generalizing a with
  | nil => exact le_refl a
  | cons d r ih =>
    have h1 : a ≤ a * b + d := by
      have := Nat.le_mul_of_pos_right a hb
      omega
    calc a ≤ a * b + d := h1
      _ ≤ valFrom b (a * b + d) r := ih (a * b + d)
      _ = valFrom b a (d :: r) := rfl

theorem tryU128Go_spec {base : Nat} (hb : 1 ≤ base) :
    ∀ (l : List Nat), (∀ x ∈ l, x ≤ Optimized.U128_MAX) →
      ∀ (r : Nat), r ≤ Optimized.U128_MAX →
      Optimized.tryU128Go base l r =
        if valFrom base r l ≤ Optimized.U128_MAX then some (valFrom base r l)
        else none := by
  intro l
  induction l with
  | nil =>
    intro _ r hr
    unfold Optimized.tryU128Go
    have h0 : valFrom base r [] = r := rfl
    rw [h0, if_pos hr]
  | cons d rest ih =>
    intro hdig r hr
    have hd : d ≤ Optimized.U128_MAX := hdig d (List.mem_cons_self d rest)
    have ihrest := ih (fun x hx => hdig x (List.mem_cons_of_mem d hx))
    unfold Optimized.tryU128Go
    have hval : valFrom base r (d :: rest) = valFrom base (r * base + d) rest := rfl
    by_cases hc1 : Optimized.U128_MAX / base < r
    · rw [if_pos hc1]
      have h1 : Optimized.U128_MAX < r * base := by
        have hdm := Nat.div_add_mod Optimized.U128_MAX base
        have hmod : Optimized.U128_MAX % base < base := Nat.mod_lt _ (by omega)
        have : (Optimized.U128_MAX / base + 1) * base ≤ r * base :=
          Nat.mul_le_mul_right base (by omega)
        have h2 : (Optimized.U128_MAX / base + 1) * base =
            base * (Optimized.U128_MAX / base) + base := by ring
        omega
      have h3 : Optimized.U128_MAX < valFrom base r (d :: rest) := by
        rw [hval]
        have := valFrom_le hb (r * base + d) rest
        omega
      rw [if_neg (by omega)]
    · rw [if_neg hc1]
      by_cases hc2 : Optimized.U128_MAX - d < r * base
      · rw [if_pos hc2]
        have h3 : Optimized.U128_MAX < valFrom base r (d :: rest) := by
          rw [hval]
          have := valFrom_le hb (r * base + d) rest
          omega
        rw [if_neg (by omega)]
      · rw [if_neg hc2]
        have hnext : r * base + d ≤ Optimized.U128_MAX := by omega
        rw [ihrest (r * base + d) hnext, hval]

theorem try_convert_to_u128_spec {base : Nat} (hb : 2 ≤ base)
    {digits : List Nat} (hdig : ∀ x ∈ digits, x ≤ Optimized.U128_MAX) :
    Optimized.try_convert_to_u128 digits base =
      if 20 < digits.length then none
      else if evalDigits base digits ≤ Optimized.U128_MAX then
        some (evalDigits base digits)
      else none := by
  unfold Optimized.try_convert_to_u128
  by_cases hl : 20 < digits.length
  · rw [if_pos hl, if_pos hl]
  · rw [if_neg hl, if_neg hl,
      tryU128Go_spec (by omega) digits.reverse
        (fun x hx => hdig x (List.mem_reverse.mp hx)) 0
        (by norm_num [Optimized.U128_MAX]),
      ← evalDigits_eq_valFrom_reverse]

end U128Lemmas

/-- Claim C8: for at most 20 digits below the base, `try_convert_to_u128`
returns `some v` exactly when the represented value fits in 128 unsigned
bits, and then `v` is that value; for more than 20 digits it returns `none`.
CONFIRMED. -/
theorem claim_C8_u128_exact {digits : List Nat} {base : Nat}
    (hb : 2 ≤ base) (hb' : base ≤ 65536) (hlt : ∀ d ∈ digits, d < base) :
    (20 < digits.length → Optimized.try_convert_to_u128 digits base = none) ∧
      (digits.length ≤ 20 → ∀ v,
        (Optimized.try_convert_to_u128 digits base = some v ↔
          evalDigits base digits ≤ Optimized.U128_MAX ∧ v = evalDigits base digits)) := by
  have hdig : ∀ x ∈ digits, x ≤ Optimized.U128_MAX := by
    intro x hx
    have := hlt x hx
    have : x < 65536 := by omega
    norm_num [Optimized.U128_MAX]
    omega
  constructor
  · intro hl
    rw [try_convert_to_u128_spec hb hdig, if_pos hl]
  · intro hl v
    rw [try_convert_to_u128_spec hb hdig, if_neg (by omega)]
    by_cases hfit : evalDigits base digits ≤ Optimized.U128_MAX
    · rw [if_pos hfit]
      constructor
      · intro h
        exact ⟨hfit, (Option.some_inj.mp h).symm⟩
      · intro ⟨_, hv⟩
        rw [hv]
    · rw [if_neg hfit]
      constructor
      · intro h
        cases h
      · intro ⟨h, _⟩
        exact absurd h hfit

/-- Witness for claim C8 at concrete inputs: 21 tiny digits are refused, and
a 5-digit number is accumulated exactly. -/
theorem claim_C8_u128_exact_witness :
    ((20 < (List.replicate 21 1).length →
        Optimized.try_convert_to_u128 (List.replicate 21 1) 2 = none) ∧
      ((List.replicate 21 1).length ≤ 20 → ∀ v,
        (Optimized.try_convert_to_u128 (List.replicate 21 1) 2 = some v ↔
          evalDigits 2 (List.replicate 21 1) ≤ Optimized.U128_MAX ∧
            v = evalDigits 2 (List.replicate 21 1)))) ∧
      ((20 < ([5, 4, 3, 2, 1] : List Nat).length →
        Optimized.try_convert_to_u128 [5, 4, 3, 2, 1] 10 = none) ∧
      (([5, 4, 3, 2, 1] : List Nat).length ≤ 20 → ∀ v,
        (Optimized.try_convert_to_u128 [5, 4, 3, 2, 1] 10 = some v ↔
          evalDigits 10 [5, 4, 3, 2, 1] ≤ Optimized.U128_MAX ∧
            v = evalDigits 10 [5, 4, 3, 2, 1]))) :=
  ⟨claim_C8_u128_exact (by decide) (by decide) (by decide),
   claim_C8_u128_exact (by decide) (by decide) (by decide)⟩

/-!
## The power-of-two converter (claim C7)
-/

section BitwiseLemmas

theorem land_two_pow_sub_one_eq_mod (x n : Nat) : x &&& (2 ^ n - 1) = x % 2 ^ n := by
  apply Nat.eq_of_testBit_eq
  intro i
  rw [Nat.testBit_land, Nat.testBit_two_pow_sub_one, Nat.testBit_mod_two_pow]
  exact Bool.and_comm _ _

theorem lor_shiftLeft_eq_add {b : Nat} (n a : Nat) (hb : b < 2 ^ n) :
    b ||| (a <<< n) = a * 2 ^ n + b := by
  apply Nat.eq_of_testBit_eq
  intro j
  rw [Nat.testBit_lor, Nat.shiftLeft_eq]
  have h1 : a * 2 ^ n + b = 2 ^ n * a + b := by ring
  have h2 : a * 2 ^ n = 2 ^ n * a + 0 := by ring
  rw [h1, Nat.testBit_mul_pow_two_add a hb j, h2,
    Nat.testBit_mul_pow_two_add a (by positivity : (0:Nat) < 2 ^ n) j]
  by_cases hj : j < n
  · rw [if_pos hj, if_pos hj, Nat.zero_testBit, Bool.or_false]
  · rw [if_neg hj, if_neg hj]
    have hbj : b.testBit j = false := by
      apply Nat.testBit_lt_two_pow
      calc b < 2 ^ n := hb
        _ ≤ 2 ^ j := Nat.pow_le_pow_right (by omega) (by omega)
    rw [hbj, Bool.false_or]

theorem shiftRight_lt {b n ts : Nat} (h : b < 2 ^ n) (hts : ts ≤ n) :
    b >>> ts < 2 ^ (n - ts) := by
  rw [Nat.shiftRight_eq_div_pow]
  rw [Nat.div_lt_iff_lt_mul (by positivity : (0:Nat) < 2 ^ ts)]
  calc b < 2 ^ n := h
    _ = 2 ^ (n - ts) * 2 ^ ts := by
      rw [← pow_add]
      congr 1
      omega

theorem trailingZeros_two_pow (k : Nat) : trailingZeros (2 ^ k) = k := by
  induction k with
  | zero => simp [trailingZeros]
  | succ k ih =>
    rw [trailingZeros]
    have h1 : 2 ^ (k + 1) ≠ 0 := by positivity
    have h2 : ¬(2 ^ (k + 1) % 2 = 1) := by
      have h0 : 2 ^ (k + 1) % 2 = 0 := by
        rw [pow_succ]
        exact Nat.mul_mod_left _ 2
      omega
    rw [if_neg h1, if_neg h2]
    have h3 : 2 ^ (k + 1) / 2 = 2 ^ k := by
      rw [pow_succ, Nat.mul_div_cancel _ (by omega)]
    rw [h3, ih]

theorem is_power_of_two_pow (k : Nat) : is_power_of_two (2 ^ k) = true := by
  unfold is_power_of_two
  rw [Bool.and_eq_true]
  constructor
  · simp [Nat.pos_pow_of_pos k (by omega : 0 < 2)]
  · rw [beq_iff_eq]
    apply Nat.eq_of_testBit_eq
    intro i
    rw [Nat.testBit_land, Nat.testBit_two_pow, Nat.testBit_two_pow_sub_one,
      Nat.zero_testBit]
    by_cases h : k = i
    · subst h
      simp
    · simp [h]

end BitwiseLemmas

/-- The value accumulated in a power-of-two conversion state
`(result, buffer, buffer_bits)`: the emitted digits in base `2^ts` plus the
buffer at the next position. -/
def p2Val (ts : Nat) (st : List Nat × Nat × Nat) : Nat :=
  evalDigits (2 ^ ts) st.1 + st.2.1 * (2 ^ ts) ^ st.1.length

section EmitBitsLemmas

theorem evalDigits_concat (b : Nat) (l : List Nat) (x : Nat) :
    evalDigits b (l ++ [x]) = evalDigits b l + x * b ^ l.length := by
  rw [evalDigits_append]
  have : evalDigits b [x] = x := by simp [evalDigits]
  rw [this]

theorem emitBits_spec (ts : Nat) :
    ∀ st : List Nat × Nat × Nat, ts ≠ 0 → st.2.1 < 2 ^ st.2.2 →
      p2Val ts (Optimized.emitBits ts st) = p2Val ts st ∧
      ts * (Optimized.emitBits ts st).1.length + (Optimized.emitBits ts st).2.2
        = ts * st.1.length + st.2.2 ∧
      (Optimized.emitBits ts st).2.1 < 2 ^ (Optimized.emitBits ts st).2.2 ∧
      (Optimized.emitBits ts st).2.2 < ts ∧
      ∃ ext, (Optimized.emitBits ts st).1 = st.1 ++ ext ∧ ∀ x ∈ ext, x < 2 ^ ts := by
  suffices H : ∀ bits : Nat, ∀ st : List Nat × Nat × Nat, st.2.2 = bits →
      ts ≠ 0 → st.2.1 < 2 ^ st.2.2 →
      p2Val ts (Optimized.emitBits ts st) = p2Val ts st ∧
      ts * (Optimized.emitBits ts st).1.length + (Optimized.emitBits ts st).2.2
        = ts * st.1.length + st.2.2 ∧
      (Optimized.emitBits ts st).2.1 < 2 ^ (Optimized.emitBits ts st).2.2 ∧
      (Optimized.emitBits ts st).2.2 < ts ∧
      ∃ ext, (Optimized.emitBits ts st).1 = st.1 ++ ext ∧ ∀ x ∈ ext, x < 2 ^ ts by
    intro st
    exact H st.2.2 st rfl
  intro bits
  induction bits using Nat.strong_induction_on with
  | _ bits ih =>
    intro st hb hts hbuf
    obtain ⟨res, buf, bts⟩ := st
    simp only at hb hbuf ⊢
    subst hb
    by_cases hg : ts ≤ bts
    · have hmask : buf &&& ((1 <<< ts) - 1) = buf % 2 ^ ts := by
        have h1 : (1 : Nat) <<< ts = 2 ^ ts := by
          rw [Nat.shiftLeft_eq, Nat.one_mul]
        rw [h1, land_two_pow_sub_one_eq_mod]
      have hshift : buf >>> ts = buf / 2 ^ ts := Nat.shiftRight_eq_div_pow buf ts
      have hstep : Optimized.emitBits ts (res, buf, bts) =
          Optimized.emitBits ts (res ++ [buf % 2 ^ ts], buf / 2 ^ ts, bts - ts) := by
        rw [Optimized.emitBits]
        rw [dif_pos ⟨hts, hg⟩]
        rw [hmask, hshift]
      have hbuf' : buf / 2 ^ ts < 2 ^ (bts - ts) := by
        rw [← hshift]
        exact shiftRight_lt hbuf hg
      have := ih (bts - ts) (by omega) (res ++ [buf % 2 ^ ts], buf / 2 ^ ts, bts - ts)
        rfl hts (by simpa using hbuf')
      obtain ⟨e1, e2, e3, e4, ext, hext, hextlt⟩ := this
      rw [hstep]
      refine ⟨?_, ?_, e3, e4, ?_⟩
      · rw [e1]
        unfold p2Val
        simp only [List.length_append, List.length_cons, List.length_nil]
        rw [evalDigits_concat]
        have hdm := Nat.div_add_mod buf (2 ^ ts)
        have hpow : (2 ^ ts) ^ (res.length + 1) = (2 ^ ts) ^ res.length * 2 ^ ts := by
          rw [pow_succ]
        rw [hpow]
        set B := (2 : Nat) ^ ts
        set L := (B : Nat) ^ res.length
        calc evalDigits B res + buf % B * L + buf / B * (L * B)
            = evalDigits B res + (B * (buf / B) + buf % B) * L := by ring
          _ = evalDigits B res + buf * L := by rw [hdm]
      · rw [e2]
        simp only [List.length_append, List.length_cons, List.length_nil]
        have : ts ≤ bts := hg
        ring_nf
        omega
      · refine ⟨(buf % 2 ^ ts) :: ext, ?_, ?_⟩
        · rw [hext]
          simp
        · intro x hx
          rcases List.mem_cons.mp hx with rfl | hx
          · exact Nat.mod_lt _ (by positivity)
          · exact hextlt x hx
    · have hstep : Optimized.emitBits ts (res, buf, bts) = (res, buf, bts) := by
        rw [Optimized.emitBits]
        exact dif_neg (fun hh => hg hh.2)
      rw [hstep]
      exact ⟨rfl, rfl, hbuf, show bts < ts by omega, [], by simp, by simp⟩

end EmitBitsLemmas

section Pow2Spec

theorem p2fold_spec (fs ts : Nat) (hts : ts ≠ 0) :
    ∀ (l : List Nat) (st : List Nat × Nat × Nat),
      st.2.1 < 2 ^ st.2.2 → st.2.2 < ts → (∀ d ∈ l, d < 2 ^ fs) →
      p2Val ts (l.foldl (Optimized.p2Step fs ts) st) =
        p2Val ts st + evalDigits (2 ^ fs) l * 2 ^ (ts * st.1.length + st.2.2) ∧
      ts * (l.foldl (Optimized.p2Step fs ts) st).1.length +
          (l.foldl (Optimized.p2Step fs ts) st).2.2
        = ts * st.1.length + st.2.2 + fs * l.length ∧
      (l.foldl (Optimized.p2Step fs ts) st).2.1 <
        2 ^ (l.foldl (Optimized.p2Step fs ts) st).2.2 ∧
      (l.foldl (Optimized.p2Step fs ts) st).2.2 < ts ∧
      ∃ ext, (l.foldl (Optimized.p2Step fs ts) st).1 = st.1 ++ ext ∧
        ∀ x ∈ ext, x < 2 ^ ts := by
  intro l
  induction l with
  | nil =>
    intro st hbuf hbits _
    refine ⟨?_, ?_, hbuf, hbits, [], by simp, by simp⟩
    · simp [evalDigits]
    · simp
  | cons d l ih =>
    intro st hbuf hbits hd
    obtain ⟨res, buf, bits⟩ := st
    simp only at hbuf hbits ⊢
    have hdlt : d < 2 ^ fs := hd d (List.mem_cons_self d l)
    have hlor : buf ||| (d <<< bits) = d * 2 ^ bits + buf :=
      lor_shiftLeft_eq_add bits d hbuf
    have hbuf2 : d * 2 ^ bits + buf < 2 ^ (bits + fs) := by
      have h1 : d * 2 ^ bits + buf < (d + 1) * 2 ^ bits := by
        have := hbuf
        nlinarith [Nat.pos_pow_of_pos bits (show 0 < 2 by omega)]
      calc d * 2 ^ bits + buf < (d + 1) * 2 ^ bits := h1
        _ ≤ 2 ^ fs * 2 ^ bits := Nat.mul_le_mul_right _ (by omega)
        _ = 2 ^ (bits + fs) := by rw [← pow_add, Nat.add_comm]
    have hstep : Optimized.p2Step fs ts (res, buf, bits) d =
        Optimized.emitBits ts (res, d * 2 ^ bits + buf, bits + fs) := by
      unfold Optimized.p2Step
      simp only []
      rw [hlor]
    have hemit := emitBits_spec ts (res, d * 2 ^ bits + buf, bits + fs) hts
      (by simpa using hbuf2)
    obtain ⟨e1, e2, e3, e4, ext1, hext1, hext1lt⟩ := hemit
    set st1 := Optimized.emitBits ts (res, d * 2 ^ bits + buf, bits + fs) with hst1
    have hih := ih st1 e3 e4 (fun x hx => hd x (List.mem_cons_of_mem d hx))
    obtain ⟨i1, i2, i3, i4, ext2, hext2, hext2lt⟩ := hih
    rw [List.foldl_cons, hstep]
    have hval1 : p2Val ts st1 =
        p2Val ts (res, buf, bits) + d * 2 ^ (ts * res.length + bits) := by
      rw [e1]
      unfold p2Val
      simp only []
      have hpm : ((2 : Nat) ^ ts) ^ res.length = 2 ^ (ts * res.length) :=
        (pow_mul 2 ts res.length).symm
      rw [hpm, pow_add]
      ring
    have hcnt1 : ts * st1.1.length + st1.2.2 = ts * res.length + bits + fs := by
      rw [e2]
      simp only []
      omega
    refine ⟨?_, ?_, i3, i4, ?_⟩
    · rw [i1, hval1, hcnt1, evalDigits_cons]
      have h2 : 2 ^ (ts * res.length + bits + fs) =
          2 ^ (ts * res.length + bits) * 2 ^ fs := by
        rw [← pow_add]
      rw [h2]
      ring
    · rw [i2, hcnt1]
      simp only [List.length_cons]
      ring
    · refine ⟨ext1 ++ ext2, ?_, ?_⟩
      · rw [hext2, hst1, hext1]
        simp
      · intro x hx
        rcases List.mem_append.mp hx with hx | hx
        · exact hext1lt x hx
        · exact hext2lt x hx

theorem convert_pow2_spec {fs ts : Nat} (hfs : 1 ≤ fs) (hts : 1 ≤ ts)
    {digits : List Nat} (hd : ∀ d ∈ digits, d < 2 ^ fs) (hne : digits ≠ []) :
    Optimized.convert_power_of_two_optimized digits (2 ^ fs) (2 ^ ts) =
      repDigits (2 ^ ts) (evalDigits (2 ^ fs) digits) := by
  unfold Optimized.convert_power_of_two_optimized
  rw [show log2_of_power_of_two (2 ^ fs) = fs from trailingZeros_two_pow fs,
    show log2_of_power_of_two (2 ^ ts) = ts from trailingZeros_two_pow ts]
  have hfold := p2fold_spec fs ts (by omega) digits ([], 0, 0)
    (by simp) (by simpa using hts) hd
  obtain ⟨f1, f2, f3, f4, ext, hext, hextlt⟩ := hfold
  set st := digits.foldl (Optimized.p2Step fs ts) ([], 0, 0) with hst
  have hV : p2Val ts st = evalDigits (2 ^ fs) digits := by
    rw [f1]
    simp [p2Val, evalDigits]
  have hcnt : ts * st.1.length + st.2.2 = fs * digits.length := by
    rw [f2]
    simp
  have hresmem : ∀ x ∈ st.1, x < 2 ^ ts := by
    intro x hx
    rw [hext] at hx
    exact hextlt x (by simpa using hx)
  set raw := if 0 < st.2.2 then st.1 ++ [st.2.1] else st.1 with hraw
  have hrawval : evalDigits (2 ^ ts) raw = evalDigits (2 ^ fs) digits := by
    rw [hraw]
    by_cases hb : 0 < st.2.2
    · rw [if_pos hb, evalDigits_concat, ← hV]
      rfl
    · rw [if_neg hb]
      have hb0 : st.2.2 = 0 := by omega
      have : st.2.1 = 0 := by
        have := f3
        rw [hb0] at this
        simpa using this
      rw [← hV]
      unfold p2Val
      rw [this]
      simp
  have hrawmem : ∀ x ∈ raw, x < 2 ^ ts := by
    intro x hx
    rw [hraw] at hx
    by_cases hb : 0 < st.2.2
    · rw [if_pos hb] at hx
      rcases List.mem_append.mp hx with hx | hx
      · exact hresmem x hx
      · have hx' : x = st.2.1 := by simpa using hx
        rw [hx']
        calc st.2.1 < 2 ^ st.2.2 := f3
          _ ≤ 2 ^ ts := Nat.pow_le_pow_right (by omega) (by omega)
    · rw [if_neg hb] at hx
      exact hresmem x hx
  have hrawne : raw ≠ [] := by
    rw [hraw]
    by_cases hb : 0 < st.2.2
    · rw [if_pos hb]
      simp
    · rw [if_neg hb]
      intro hnil
      rw [hnil] at hcnt
      simp only [List.length_nil, Nat.mul_zero, Nat.zero_add] at hcnt
      have hb0 : st.2.2 = 0 := by omega
      rw [hb0] at hcnt
      have hlen : digits.length = 0 := by
        rcases Nat.mul_eq_zero.mp hcnt.symm with h | h
        · omega
        · exact h
      exact hne (List.eq_nil_of_length_eq_zero hlen)
  rw [← hrawval]
  exact trim_eq_repDigits (Nat.one_lt_two_pow (by omega)) hrawne hrawmem

end Pow2Spec

/-- Claim C7: on every valid input whose two bases are powers of two, the
optimized converter (which dispatches to the power-of-two bit accumulator
after the shared shortcuts) returns exactly what the reference long-division
converter returns.  CONFIRMED. -/
theorem claim_C7_pow2_equals_baseline {digits : List Nat} {fb tb : Nat}
    (fuel : Nat) (i j : Nat) (hfb2 : fb = 2 ^ i) (htb2 : tb = 2 ^ j)
    (h1 : 2 ≤ fb) (h2 : fb ≤ 65536) (h3 : 2 ≤ tb) (h4 : tb ≤ 65536)
    (hd : ∀ d ∈ digits, d < fb) :
    Optimized.convert_base digits fb tb fuel =
      some (Baseline.convert_base digits fb tb) := by
  subst hfb2 htb2
  have hi : 1 ≤ i := by
    by_contra hi0
    have h00 : i = 0 := by omega
    rw [h00] at h1
    omega
  have hj : 1 ≤ j := by
    by_contra hj0
    have h00 : j = 0 := by omega
    rw [h00] at h3
    omega
  unfold Optimized.convert_base Baseline.convert_base
  have hbase : ¬(2 ^ i < 2 ∨ 65536 < 2 ^ i ∨ 2 ^ j < 2 ∨ 65536 < 2 ^ j) := by omega
  simp only [if_neg hbase]
  by_cases hfbtb : 2 ^ i = 2 ^ j
  · simp only [if_pos hfbtb]
  · simp only [if_neg hfbtb]
    by_cases h0 : digits = [] ∨ digits = [0]
    · simp only [if_pos h0]
    · simp only [if_neg h0]
      have hany : digits.any (fun d => decide (2 ^ i ≤ d)) = false := by
        rw [List.any_eq_false]
        intro d hdm
        simpa using Nat.not_le.mpr (hd d hdm)
      rw [hany]
      simp only [Bool.false_eq_true, if_false]
      have hpow : (is_power_of_two (2 ^ i) && is_power_of_two (2 ^ j)) = true := by
        rw [is_power_of_two_pow, is_power_of_two_pow]
        rfl
      rw [if_pos hpow]
      have hne : digits ≠ [] := fun h => h0 (Or.inl h)
      have hn0 : digits ≠ [0] := fun h => h0 (Or.inr h)
      rw [convert_pow2_spec hi hj hd hne,
        loopDiv_spec h1 h3 hne hn0]

/-- Witness for claim C7: base 16 to base 8 on `[10, 11, 12]`. -/
theorem claim_C7_pow2_equals_baseline_witness :
    Optimized.convert_base [10, 11, 12] 16 8 0 =
      some (Baseline.convert_base [10, 11, 12] 16 8) :=
  claim_C7_pow2_equals_baseline 0 4 3 (by decide) (by decide) (by decide)
    (by decide) (by decide) (by decide) (by decide)

/-!
## Classification of powers of two and the 2-adic valuation
-/

section TrailingZerosSpec

theorem trailingZeros_spec (n : Nat) (hn : n ≠ 0) :
    2 ^ trailingZeros n ∣ n ∧ (n / 2 ^ trailingZeros n) % 2 = 1 := by
  induction n using Nat.strong_induction_on with
  | _ n ih =>
    rw [trailingZeros, if_neg hn]
    by_cases hodd : n % 2 = 1
    · rw [if_pos hodd]
      simpa using hodd
    · rw [if_neg hodd]
      have hhalf : n / 2 ≠ 0 := by omega
      have h2 := ih (n / 2) (Nat.div_lt_self (by omega) (by omega)) hhalf
      obtain ⟨hdvd, hoddq⟩ := h2
      set t := trailingZeros (n / 2)
      have hn2 : n = 2 * (n / 2) := by omega
      constructor
      · rw [pow_succ, Nat.mul_comm (2 ^ t) 2]
        conv_rhs => rw [hn2]
        exact Nat.mul_dvd_mul_left 2 hdvd
      · have h3 : n / 2 ^ (t + 1) = n / 2 / 2 ^ t := by
          rw [Nat.div_div_eq_div_mul]
          congr 1
          rw [pow_succ]
          ring
        rw [h3]
        exact hoddq

theorem eq_two_pow_of_is_power_of_two {n : Nat} (h : is_power_of_two n = true) :
    ∃ k, n = 2 ^ k := by
  unfold is_power_of_two at h
  rw [Bool.and_eq_true, beq_iff_eq] at h
  obtain ⟨hposb, hland⟩ := h
  have hpos : 0 < n := by simpa using hposb
  obtain ⟨hdvd, hodd⟩ := trailingZeros_spec n (by omega)
  refine ⟨trailingZeros n, ?_⟩
  generalize hk : trailingZeros n = k at hdvd hodd
  generalize hm : n / 2 ^ k = m at hodd
  have hnm : n = 2 ^ k * m := by
    rw [← hm, Nat.mul_comm]
    exact (Nat.div_mul_cancel hdvd).symm
  rcases Nat.lt_or_ge m 2 with hm2 | hm2
  · have hm1 : m = 1 := by omega
    rw [hnm, hm1, Nat.mul_one]
  · exfalso
    have hm3 : 3 ≤ m := by omega
    have hqm : m = 2 * (m / 2) + 1 := by omega
    set q := m / 2 with hqdef
    have hq1 : q ≠ 0 := by omega
    obtain ⟨i0, hbit⟩ := Nat.ne_zero_implies_bit_true hq1
    have hp : 0 < 2 ^ k := by positivity
    have hb1 : n.testBit (k + (i0 + 1)) = true := by
      have hrep : n = 2 ^ k * m + 0 := by omega
      rw [hrep, Nat.testBit_mul_pow_two_add m hp (k + (i0 + 1))]
      rw [if_neg (by omega)]
      have h5 : k + (i0 + 1) - k = i0 + 1 := by omega
      rw [h5, Nat.testBit_add_one]
      exact hbit
    have hb2 : (n - 1).testBit (k + (i0 + 1)) = true := by
      have hmul : 2 ^ k * m = 2 ^ k * (m - 1) + 2 ^ k := by
        rw [← Nat.mul_succ]
        congr 1
        omega
      have hsub : n - 1 = 2 ^ k * (m - 1) + (2 ^ k - 1) := by omega
      rw [hsub, Nat.testBit_mul_pow_two_add (m - 1) (show 2 ^ k - 1 < 2 ^ k by omega)
        (k + (i0 + 1))]
      rw [if_neg (by omega)]
      have h5 : k + (i0 + 1) - k = i0 + 1 := by omega
      rw [h5, Nat.testBit_add_one]
      have h6 : (m - 1) / 2 = q := by omega
      rw [h6]
      exact hbit
    have hdone : (n &&& (n - 1)).testBit (k + (i0 + 1)) = true := by
      rw [Nat.testBit_land, hb1, hb2]
      rfl
    rw [hland, Nat.zero_testBit] at hdone
    cases hdone

end TrailingZerosSpec

/-!
## Output well-formedness of the remaining strategies (claims C4 and C10)
-/

section AlignedLemmas

theorem convert_from_u128_eq_rep (num base : Nat) :
    Optimized.convert_from_u128 num base = repDigits base num := rfl

theorem find_aligned_pos {fb tb a b : Nat}
    (h : Optimized.find_aligned_exponents fb tb = some (a, b)) : 1 ≤ a ∧ 1 ≤ b := by
  unfold Optimized.find_aligned_exponents at h
  split at h
  any_goals (injection h with h1; injection h1 with h2 h3; omega)
  split at h
  · cases h
  · obtain ⟨a0, _, hf⟩ := List.exists_of_findSome?_eq_some h
    simp only at hf
    obtain ⟨b0, _, hg⟩ := List.exists_of_findSome?_eq_some hf
    split at hg
    · injection hg with h1
      injection h1 with h2 h3
      omega
    · cases hg

theorem emitDigits_spec (tb : Nat) (htb : 1 ≤ tb) :
    ∀ (eb : Nat) (st : List Nat × Nat),
      ∃ ext, (Optimized.emitDigits tb eb st).1 = st.1 ++ ext ∧
        ext.length = eb ∧ ∀ x ∈ ext, x < tb := by
  intro eb
  induction eb with
  | zero =>
    intro st
    exact ⟨[], by simp [Optimized.emitDigits], rfl, by simp⟩
  | succ eb ih =>
    intro st
    have hstep : Optimized.emitDigits tb (eb + 1) st =
        Optimized.emitDigits tb eb (st.1 ++ [st.2 % tb], st.2 / tb) := by
      unfold Optimized.emitDigits
      rw [show List.range (eb + 1) = 0 :: (List.range eb).map (· + 1) from by
        rw [List.range_succ_eq_map]]
      rw [List.foldl_cons, List.foldl_map]
    rw [hstep]
    obtain ⟨ext, h1, h2, h3⟩ := ih (st.1 ++ [st.2 % tb], st.2 / tb)
    refine ⟨(st.2 % tb) :: ext, ?_, by simp [h2], ?_⟩
    · rw [h1]
      simp
    · intro x hx
      rcases List.mem_cons.mp hx with rfl | hx
      · exact Nat.mod_lt _ (by omega)
      · exact h3 x hx

theorem alignedFold_spec (tb eb : Nat) (htb : 1 ≤ tb) (powers : List Nat) :
    ∀ (cl : List (List Nat)) (res : List Nat), (∀ x ∈ res, x < tb) →
      (∀ x ∈ cl.foldl
        (fun result chunk =>
          (Optimized.emitDigits tb eb (result, Optimized.chunkValue chunk powers)).1)
        res, x < tb) ∧
      (res ≠ [] ∨ (cl ≠ [] ∧ 1 ≤ eb) →
        cl.foldl
          (fun result chunk =>
            (Optimized.emitDigits tb eb (result, Optimized.chunkValue chunk powers)).1)
          res ≠ []) := by
  intro cl
  induction cl with
  | nil =>
    intro res hres
    refine ⟨by simpa using hres, ?_⟩
    intro h
    rcases h with h | h
    · simpa using h
    · exact absurd rfl h.1
  | cons c cl ih =>
    intro res hres
    obtain ⟨ext, he1, he2, he3⟩ :=
      emitDigits_spec tb htb eb (res, Optimized.chunkValue c powers)
    have hres' : ∀ x ∈ (Optimized.emitDigits tb eb
        (res, Optimized.chunkValue c powers)).1, x < tb := by
      intro x hx
      rw [he1] at hx
      rcases List.mem_append.mp hx with hx | hx
      · exact hres x hx
      · exact he3 x hx
    obtain ⟨ihm, ihne⟩ := ih _ hres'
    rw [List.foldl_cons]
    refine ⟨ihm, ?_⟩
    intro h
    apply ihne
    left
    rw [he1]
    rcases h with h | h
    · intro hh
      rcases List.append_eq_nil.mp hh with ⟨h1, _⟩
      exact h h1
    · intro hh
      rcases List.append_eq_nil.mp hh with ⟨_, h2⟩
      rw [h2] at he2
      simp at he2
      omega

theorem chunksOf_ne_nil {k : Nat} {l : List Nat} (hl : l ≠ []) (hk : k ≠ 0) :
    Optimized.chunksOf k l ≠ [] := by
  rw [Optimized.chunksOf, dif_neg (by simp [hl, hk])]
  simp

theorem convert_aligned_canonical {digits : List Nat} {fb tb ea eb : Nat}
    (htb : 1 ≤ tb) (hea : 1 ≤ ea) (heb : 1 ≤ eb) (hne : digits ≠ []) :
    Canonical (Optimized.convert_aligned_bases digits fb tb ea eb) ∧
      ∀ x ∈ Optimized.convert_aligned_bases digits fb tb ea eb, x < tb := by
  unfold Optimized.convert_aligned_bases
  obtain ⟨hmem, hnenil⟩ := alignedFold_spec tb eb htb (Optimized.powersList fb ea)
    (Optimized.chunksOf ea digits) [] (by simp)
  have hresne := hnenil (Or.inr ⟨chunksOf_ne_nil hne (by omega), heb⟩)
  exact ⟨trim_canonical hresne, fun x hx => hmem x (trim_subset x hx)⟩

end AlignedLemmas

section GeneralLoopLemmas

variable {fb tb : Nat}

theorem passStep_snd_lt (htb : 1 ≤ tb) (st : List Nat × Nat) (d : Nat) :
    (passStep fb tb st d).2 < tb := Nat.mod_lt _ (by omega)

theorem foldl_passStep_snd_lt (htb : 1 ≤ tb) (l : List Nat) :
    ∀ st : List Nat × Nat, st.2 < tb → (l.foldl (passStep fb tb) st).2 < tb := by
  induction l with
  | nil => intro st h; exact h
  | cons d r ih =>
    intro st h
    rw [List.foldl_cons]
    exact ih _ (passStep_snd_lt htb st d)

theorem Optimized.gDown_snd_lt (htb : 1 ≤ tb) (cur : List Nat) :
    ∀ (i : Nat) (st : List Nat × Nat), st.2 < tb →
      (Optimized.gDown fb tb cur i st).2 < tb := by
  intro i
  induction i with
  | zero => intro st h; exact h
  | succ i ih =>
    intro st h
    exact ih _ (passStep_snd_lt htb st _)

theorem Optimized.gBlock_snd_lt (htb : 1 ≤ tb) (cur : List Nat) (i w : Nat) :
    ∀ st : List Nat × Nat, st.2 < tb → (Optimized.gBlock fb tb cur i w st).2 < tb := by
  unfold Optimized.gBlock
  induction w with
  | zero => intro st h; simpa using h
  | succ w ih =>
    intro st h
    rw [List.range_succ, List.foldl_append]
    exact passStep_snd_lt htb _ _

theorem Optimized.gChunks_snd_lt (htb : 1 ≤ tb) (w : Nat) (cur : List Nat) :
    ∀ (c i : Nat) (st : List Nat × Nat), st.2 < tb →
      (Optimized.gChunks fb tb w cur c i st).2 < tb := by
  intro c
  induction c with
  | zero => intro i st h; exact h
  | succ c ih =>
    intro i st h
    exact ih _ _ (Optimized.gBlock_snd_lt htb cur _ _ st h)

theorem Optimized.generalPass_snd_lt (htb : 1 ≤ tb) (cur : List Nat) :
    (Optimized.generalPass fb tb cur).2 < tb := by
  unfold Optimized.generalPass
  by_cases h16 : 16 ≤ cur.length
  · rw [if_pos h16]
    exact Optimized.gDown_snd_lt htb cur _ _ (Optimized.gChunks_snd_lt htb 16 cur _ _ _ (by omega))
  · rw [if_neg h16]
    by_cases h4 : 4 ≤ cur.length
    · rw [if_pos h4]
      exact Optimized.gDown_snd_lt htb cur _ _ (Optimized.gChunks_snd_lt htb 4 cur _ _ _ (by omega))
    · rw [if_neg h4]
      exact Optimized.gDown_snd_lt htb cur _ _ (by omega)

theorem Optimized.chunkedPass_snd_lt (htb : 1 ≤ tb) (cur : List Nat) :
    (Optimized.chunkedPass fb tb cur).2 < tb := by
  unfold Optimized.chunkedPass
  generalize Optimized.chunksOf 64 cur = cl
  induction cl using List.reverseRecOn with
  | nil => simpa using htb
  | append_singleton cl c ih =>
    rw [List.foldl_append]
    exact foldl_passStep_snd_lt htb _ _ (by simpa using ih)

theorem Optimized.generalLoop_spec (htb : 1 ≤ tb) :
    ∀ (fuel : Nat) (cur : List Nat) (r : List Nat),
      Optimized.generalLoop fb tb fuel cur = some r →
      (∀ x ∈ r, x < tb) ∧ (cur ≠ [] → cur ≠ [0] → r ≠ []) := by
  intro fuel
  induction fuel with
  | zero =>
    intro cur r h
    unfold Optimized.generalLoop at h
    split at h
    · injection h with h1
      subst h1
      exact ⟨by simp, by tauto⟩
    · cases h
  | succ fuel ih =>
    intro cur r h
    unfold Optimized.generalLoop at h
    split at h
    case isTrue hc =>
      injection h with h1
      subst h1
      exact ⟨by simp, by tauto⟩
    case isFalse hc =>
      rw [Option.map_eq_some'] at h
      obtain ⟨rest, hrest, hr⟩ := h
      obtain ⟨ihm, _⟩ := ih _ rest hrest
      subst hr
      constructor
      · intro x hx
        rcases List.mem_cons.mp hx with rfl | hx
        · exact Optimized.generalPass_snd_lt htb cur
        · exact ihm x hx
      · intro _ _
        simp

theorem Optimized.chunkedLoop_spec (htb : 1 ≤ tb) :
    ∀ (fuel : Nat) (cur : List Nat) (r : List Nat),
      Optimized.chunkedLoop fb tb fuel cur = some r →
      (∀ x ∈ r, x < tb) ∧ (cur ≠ [] → cur ≠ [0] → r ≠ []) := by
  intro fuel
  induction fuel with
  | zero =>
    intro cur r h
    unfold Optimized.chunkedLoop at h
    split at h
    · injection h with h1
      subst h1
      exact ⟨by simp, by tauto⟩
    · cases h
  | succ fuel ih =>
    intro cur r h
    unfold Optimized.chunkedLoop at h
    split at h
    case isTrue hc =>
      injection h with h1
      subst h1
      exact ⟨by simp, by tauto⟩
    case isFalse hc =>
      rw [Option.map_eq_some'] at h
      obtain ⟨rest, hrest, hr⟩ := h
      obtain ⟨ihm, _⟩ := ih _ rest hrest
      subst hr
      constructor
      · intro x hx
        rcases List.mem_cons.mp hx with rfl | hx
        · exact Optimized.chunkedPass_snd_lt htb cur
        · exact ihm x hx
      · intro _ _
        simp

theorem convert_general_spec {digits : List Nat} {fuel : Nat} {r : List Nat}
    (htb : 2 ≤ tb) (hne : digits ≠ []) (hn0 : digits ≠ [0])
    (h : Optimized.convert_general_optimized_tricks digits fb tb fuel = some r) :
    Canonical r ∧ ∀ x ∈ r, x < tb := by
  unfold Optimized.convert_general_optimized_tricks at h
  split at h
  case isTrue hlen =>
    obtain ⟨d, hd⟩ := List.length_eq_one.mp hlen
    subst hd
    have hd0 : d ≠ 0 := by
      intro h0
      subst h0
      exact hn0 rfl
    simp only [List.headD_cons] at h
    split at h
    case isTrue hdlt =>
      injection h with h1
      subst h1
      exact ⟨⟨by simp, by simp [hd0]⟩, by simpa using hdlt⟩
    case isFalse hdlt =>
      injection h with h1
      subst h1
      have hrep : toDigitsLoop tb d = repDigits tb d := by
        unfold repDigits
        rw [if_neg hd0]
      rw [hrep]
      exact ⟨repDigits_canonical htb d, repDigits_lt htb d⟩
  case isFalse hlen =>
    split at h
    case isTrue hbig =>
      unfold Optimized.convert_large_number_chunked at h
      rw [Option.map_eq_some'] at h
      obtain ⟨lst, hlst, hr⟩ := h
      obtain ⟨hm, hn⟩ := @Optimized.chunkedLoop_spec fb tb (by omega) fuel digits lst hlst
      subst hr
      exact ⟨trim_canonical (hn hne hn0),
        fun x hx => hm x (trim_subset x hx)⟩
    case isFalse hbig =>
      rw [Option.map_eq_some'] at h
      obtain ⟨lst, hlst, hr⟩ := h
      obtain ⟨hm, hn⟩ := @Optimized.generalLoop_spec fb tb (by omega) fuel digits lst hlst
      subst hr
      exact ⟨trim_canonical (hn hne hn0),
        fun x hx => hm x (trim_subset x hx)⟩

end GeneralLoopLemmas

/-- Master lemma: for valid inputs with distinct bases, whatever sequence the
optimized converter returns (whichever of the four strategies produced it)
is canonical and consists of digits below the target base. -/
theorem convert_base_ok_strong {digits : List Nat} {fb tb fuel : Nat} {r : List Nat}
    (h1 : 2 ≤ fb) (h2 : fb ≤ 65536) (h3 : 2 ≤ tb) (h4 : tb ≤ 65536)
    (hvalid : ∀ d ∈ digits, d < fb) (hne : fb ≠ tb)
    (hok : Optimized.convert_base digits fb tb fuel = some (.ok r)) :
    Canonical r ∧ ∀ x ∈ r, x < tb := by
  unfold Optimized.convert_base at hok
  rw [if_neg (by omega), if_neg hne] at hok
  by_cases h0 : digits = [] ∨ digits = [0]
  · rw [if_pos h0] at hok
    have hr : r = [0] := by
      injection hok with hh
      injection hh with hh2
      exact hh2.symm
    subst hr
    refine ⟨⟨by simp, by simp⟩, ?_⟩
    intro x hx
    have : x = 0 := by simpa using hx
    omega
  · rw [if_neg h0] at hok
    have hany : digits.any (fun d => decide (fb ≤ d)) = false := by
      rw [List.any_eq_false]
      intro d hdm
      simpa using Nat.not_le.mpr (hvalid d hdm)
    rw [hany] at hok
    simp only [Bool.false_eq_true, if_false] at hok
    have hdne : digits ≠ [] := fun h => h0 (Or.inl h)
    have hdn0 : digits ≠ [0] := fun h => h0 (Or.inr h)
    by_cases hpow : (is_power_of_two fb && is_power_of_two tb) = true
    · rw [if_pos hpow] at hok
      rw [Bool.and_eq_true] at hpow
      obtain ⟨i, hi⟩ := eq_two_pow_of_is_power_of_two hpow.1
      obtain ⟨j, hj⟩ := eq_two_pow_of_is_power_of_two hpow.2
      subst hi hj
      have hii : 1 ≤ i := by
        by_contra hc
        have h00 : i = 0 := by omega
        rw [h00] at h1
        omega
      have hjj : 1 ≤ j := by
        by_contra hc
        have h00 : j = 0 := by omega
        rw [h00] at h3
        omega
      rw [convert_pow2_spec hii hjj hvalid hdne] at hok
      have hr : r = repDigits (2 ^ j) (evalDigits (2 ^ i) digits) := by
        injection hok with hh
        injection hh with hh2
        exact hh2.symm
      subst hr
      exact ⟨repDigits_canonical h3 _, repDigits_lt h3 _⟩
    · rw [if_neg hpow] at hok
      rcases hu : Optimized.try_convert_to_u128 digits fb with _ | num
      · rw [hu] at hok
        rcases ha : Optimized.find_aligned_exponents fb tb with _ | ⟨ea, eb⟩
        · rw [ha] at hok
          rw [Option.map_eq_some'] at hok
          obtain ⟨a, haa, hae⟩ := hok
          have har : a = r := by
            injection hae
          subst har
          exact convert_general_spec h3 hdne hdn0 haa
        · rw [ha] at hok
          have hr : r = Optimized.convert_aligned_bases digits fb tb ea eb := by
            injection hok with hh
            injection hh with hh2
            exact hh2.symm
          subst hr
          obtain ⟨hea, heb⟩ := find_aligned_pos ha
          exact convert_aligned_canonical (by omega) hea heb hdne
      · rw [hu] at hok
        have hr : r = Optimized.convert_from_u128 num tb := by
          injection hok with hh
          injection hh with hh2
          exact hh2.symm
        subst hr
        rw [convert_from_u128_eq_rep]
        exact ⟨repDigits_canonical h3 num, repDigits_lt h3 num⟩

/-- Claim C4, amended: on every accepted input with `from_base ≠ to_base`,
any sequence returned by the optimized converter is canonical (nonempty, no
trailing most-significant zero except `[0]`); the `from_base == to_base`
shortcut instead returns the input unchanged. -/
theorem claim_C4_amended {digits : List Nat} {fb tb fuel : Nat} {r : List Nat}
    (h1 : 2 ≤ fb) (h2 : fb ≤ 65536) (h3 : 2 ≤ tb) (h4 : tb ≤ 65536)
    (hvalid : ∀ d ∈ digits, d < fb) (hne : fb ≠ tb)
    (hok : Optimized.convert_base digits fb tb fuel = some (.ok r)) :
    Canonical r :=
  (convert_base_ok_strong h1 h2 h3 h4 hvalid hne hok).1

/-- Witness for the amended C4: a trailing-zero input between distinct bases
comes back canonical. -/
theorem claim_C4_amended_witness : Canonical [9, 3] :=
  @claim_C4_amended [1, 2, 3, 0] 4 16 0 [9, 3]
    (by decide) (by decide) (by decide) (by decide) (by decide) (by decide)
    (by simp [Optimized.convert_base, Optimized.try_convert_to_u128,
      Optimized.tryU128Go, Optimized.U128_MAX, Optimized.convert_from_u128,
      toDigitsLoop, trim, trimAux,
      (by decide : is_power_of_two 4 = true), (by decide : is_power_of_two 16 = true),
      (by decide : (9 : Nat) &&& 15 = 9), (by decide : (3 : Nat) &&& 15 = 3),
      Optimized.convert_power_of_two_optimized, Optimized.p2Step, Optimized.emitBits,
      log2_of_power_of_two, trailingZeros])

/-- Claim C10: every digit of any sequence the optimized converter returns is
strictly below the target base, on every valid input and through every
strategy.  CONFIRMED. -/
theorem claim_C10_output_digits_below_base {digits : List Nat} {fb tb fuel : Nat}
    {r : List Nat}
    (h1 : 2 ≤ fb) (h2 : fb ≤ 65536) (h3 : 2 ≤ tb) (h4 : tb ≤ 65536)
    (hvalid : ∀ d ∈ digits, d < fb)
    (hok : Optimized.convert_base digits fb tb fuel = some (.ok r)) :
    ∀ x ∈ r, x < tb := by
  by_cases hne : fb = tb
  · unfold Optimized.convert_base at hok
    rw [if_neg (by omega), if_pos hne] at hok
    have hr : r = digits := by
      injection hok with hh
      injection hh with hh2
      exact hh2.symm
    subst hr
    intro x hx
    have := hvalid x hx
    omega
  · exact (convert_base_ok_strong h1 h2 h3 h4 hvalid hne hok).2

/-- Witness for claim C10: base 16 to 8 (power-of-two path). -/
theorem claim_C10_output_digits_below_base_witness :
    2 < 8 ∧ 7 < 8 ∧ 6 < 8 := by
  have h := @claim_C10_output_digits_below_base [10, 11, 12] 16 8 0 [2, 7, 2, 6]
    (by decide) (by decide) (by decide) (by decide) (by decide)
    (by simp [Optimized.convert_base,
      (by decide : is_power_of_two 16 = true), (by decide : is_power_of_two 8 = true),
      Optimized.convert_power_of_two_optimized, Optimized.p2Step, Optimized.emitBits,
      log2_of_power_of_two, trailingZeros, trim, trimAux]
      <;> decide)
  exact ⟨h 2 (by simp), h 7 (by simp), h 6 (by simp)⟩

/-!
## Trial-division factorization (claim C9)
-/

section FactorizationLemmas

theorem extractFactor_spec (p : Nat) (hp : 2 ≤ p) :
    ∀ n : Nat, 0 < n →
      n = p ^ (Optimized.extractFactor p n).1 * (Optimized.extractFactor p n).2 ∧
      ¬ p ∣ (Optimized.extractFactor p n).2 ∧ 0 < (Optimized.extractFactor p n).2 := by
  intro n
  induction n using Nat.strong_induction_on with
  | _ n ih =>
    intro hn
    rw [Optimized.extractFactor]
    by_cases hg : 2 ≤ p ∧ 0 < n ∧ n % p = 0
    · rw [dif_pos hg]
      have hdvd : p ∣ n := Nat.dvd_of_mod_eq_zero hg.2.2
      have hq : 0 < n / p := Nat.div_pos (Nat.le_of_dvd hn hdvd) (by omega)
      have hlt : n / p < n := Nat.div_lt_self hn (by omega)
      obtain ⟨ih1, ih2, ih3⟩ := ih (n / p) hlt hq
      refine ⟨?_, ih2, ih3⟩
      simp only []
      calc n = p * (n / p) := (Nat.mul_div_cancel' hdvd).symm
        _ = p * (p ^ (Optimized.extractFactor p (n / p)).1 *
            (Optimized.extractFactor p (n / p)).2) := by rw [← ih1]
        _ = p ^ ((Optimized.extractFactor p (n / p)).1 + 1) *
            (Optimized.extractFactor p (n / p)).2 := by
          rw [pow_succ]
          ring
    · rw [dif_neg hg]
      have hmod : ¬ n % p = 0 := by
        intro h
        exact hg ⟨hp, hn, h⟩
      refine ⟨by simp, ?_, hn⟩
      intro hd
      exact hmod (Nat.dvd_iff_mod_eq_zero.mp hd)

/-- Invariant of the odd trial-division loop: starting from an odd candidate
`p ≥ 3` and a residue `n` with no divisors in `[2, p)`, the loop appends a
strictly increasing run of prime-power factors at least `p`, whose product
together with the final residue reconstructs `n`; the final residue is `1`
or a prime exceeding every appended prime. -/
theorem oddFactorLoop_spec (p n : Nat) (acc : List (Nat × Nat)) :
    3 ≤ p → p % 2 = 1 → 0 < n → (∀ m, 2 ≤ m → m < p → ¬ m ∣ n) →
      ∃ new : List (Nat × Nat),
        (Optimized.oddFactorLoop p n acc).1 = acc ++ new ∧
        List.Chain' (fun a b => a.1 < b.1) new ∧
        (∀ pe ∈ new, Nat.Prime pe.1 ∧ 1 ≤ pe.2 ∧ p ≤ pe.1) ∧
        (new.map (fun pe => pe.1 ^ pe.2)).prod * (Optimized.oddFactorLoop p n acc).2 = n ∧
        0 < (Optimized.oddFactorLoop p n acc).2 ∧
        ((Optimized.oddFactorLoop p n acc).2 = 1 ∨
          (Nat.Prime (Optimized.oddFactorLoop p n acc).2 ∧
            p ≤ (Optimized.oddFactorLoop p n acc).2 ∧
            ∀ pe ∈ new, pe.1 < (Optimized.oddFactorLoop p n acc).2)) := by
  induction p, n, acc using Optimized.oddFactorLoop.induct with
  | case1 p n acc hpp hmod e ih =>
    intro hp3 hpodd hn hinv
    have hedef : e = Optimized.extractFactor p n := rfl
    rw [Optimized.oddFactorLoop, dif_pos hpp, if_pos hmod]
    simp only []
    rw [← hedef]
    have hpd : p ∣ n := Nat.dvd_of_mod_eq_zero hmod
    have hprime : Nat.Prime p := by
      rw [Nat.prime_def_lt]
      refine ⟨by omega, ?_⟩
      intro m hm hmp
      by_contra hm1
      have hm2 : 2 ≤ m := by
        rcases Nat.eq_zero_or_pos m with rfl | hpos
        · exact absurd (Nat.eq_zero_of_zero_dvd hmp) (by omega)
        · omega
      exact hinv m hm2 hm (hmp.trans hpd)
    obtain ⟨he1, he2, he3⟩ := extractFactor_spec p (by omega) n hn
    rw [← hedef] at he1 he2 he3
    have he4 : 1 ≤ e.1 := by
      by_contra hc
      have h00 : e.1 = 0 := by omega
      rw [h00, pow_zero, Nat.one_mul] at he1
      rw [← he1] at he2
      exact he2 hpd
    have hinv' : ∀ m, 2 ≤ m → m < p + 2 → ¬ m ∣ e.2 := by
      intro m hm2 hmp hmd
      have hde2 : e.2 ∣ n := Dvd.intro_left _ he1.symm
      rcases Nat.lt_or_ge m p with hlt | hge
      · exact hinv m hm2 hlt (hmd.trans hde2)
      · rcases Nat.eq_or_lt_of_le hge with heq | hgt
        · exact he2 (heq ▸ hmd)
        · have hmeq : m = p + 1 := by omega
          have h2m : 2 ∣ m := by omega
          exact hinv 2 (by omega) (by omega) ((h2m.trans hmd).trans hde2)
    obtain ⟨new', i1, i2, i3, i4, i5, i6⟩ :=
      ih (by omega) (by omega) he3 hinv'
    refine ⟨(p, e.1) :: new', ?_, ?_, ?_, ?_, i5, ?_⟩
    · rw [i1]
      simp
    · rw [List.chain'_cons']
      refine ⟨?_, i2⟩
      intro y hy
      have hmem : y ∈ new' := List.mem_of_mem_head? hy
      have := (i3 y hmem).2.2
      simp only []
      omega
    · intro pe hpe
      rcases List.mem_cons.mp hpe with rfl | hpe
      · exact ⟨hprime, he4, le_refl p⟩
      · obtain ⟨a, b, c⟩ := i3 pe hpe
        exact ⟨a, b, by omega⟩
    · rw [List.map_cons, List.prod_cons]
      calc p ^ e.1 * (new'.map (fun pe => pe.1 ^ pe.2)).prod *
            (Optimized.oddFactorLoop (p + 2) e.2 (acc ++ [(p, e.1)])).2
          = p ^ e.1 * ((new'.map (fun pe => pe.1 ^ pe.2)).prod *
            (Optimized.oddFactorLoop (p + 2) e.2 (acc ++ [(p, e.1)])).2) := by ring
        _ = p ^ e.1 * e.2 := by rw [i4]
        _ = n := he1.symm
    · rcases i6 with h | ⟨hpr, hle, hlt⟩
      · exact Or.inl h
      · refine Or.inr ⟨hpr, by omega, ?_⟩
        intro pe hpe
        rcases List.mem_cons.mp hpe with rfl | hpe
        · simp only []
          omega
        · exact hlt pe hpe
  | case2 p n acc hpp hmod ih =>
    intro hp3 hpodd hn hinv
    rw [Optimized.oddFactorLoop, dif_pos hpp, if_neg hmod]
    have hinv' : ∀ m, 2 ≤ m → m < p + 2 → ¬ m ∣ n := by
      intro m hm2 hmp hmd
      rcases Nat.lt_or_ge m p with hlt | hge
      · exact hinv m hm2 hlt hmd
      · rcases Nat.eq_or_lt_of_le hge with heq | hgt
        · subst heq
          exact hmod (Nat.dvd_iff_mod_eq_zero.mp hmd)
        · have hmeq : m = p + 1 := by omega
          have h2m : 2 ∣ m := by omega
          exact hinv 2 (by omega) (by omega) (h2m.trans hmd)
    obtain ⟨new', i1, i2, i3, i4, i5, i6⟩ := ih (by omega) (by omega) hn hinv'
    refine ⟨new', i1, i2, ?_, i4, i5, ?_⟩
    · intro pe hpe
      obtain ⟨a, b, c⟩ := i3 pe hpe
      exact ⟨a, b, by omega⟩
    · rcases i6 with h | ⟨hpr, hle, hlt⟩
      · exact Or.inl h
      · exact Or.inr ⟨hpr, by omega, hlt⟩
  | case3 p n acc hpp =>
    intro hp3 hpodd hn hinv
    rw [Optimized.oddFactorLoop, dif_neg hpp]
    refine ⟨[], by simp, by simp, by simp, by simp, hn, ?_⟩
    rcases Nat.lt_or_ge n 2 with hn2 | hn2
    · have : n = 1 := by omega
      exact Or.inl this
    · right
      have hnp : p ≤ n := by
        by_contra hc
        push_neg at hc
        exact hinv n hn2 hc dvd_rfl
      refine ⟨?_, hnp, by simp⟩
      rw [Nat.prime_def_le_sqrt]
      refine ⟨hn2, ?_⟩
      intro m hm2 hmsq
      have hmm : m * m ≤ n := Nat.le_sqrt.mp hmsq
      have hmp : m < p := by
        by_contra hc
        push_neg at hc
        have : p * p ≤ m * m := Nat.mul_le_mul hc hc
        omega
      exact hinv m hm2 hmp

theorem mem_of_getLast? {α : Type} {l : List α} {a : α} (h : l.getLast? = some a) :
    a ∈ l := by
  have hne : l ≠ [] := by
    intro hh
    subst hh
    simp at h
  rw [List.getLast?_eq_getLast l hne] at h
  have := Option.some_inj.mp h
  rw [← this]
  exact List.getLast_mem hne

instance : IsTrans (Nat × Nat) (fun a b => a.1 < b.1) :=
  ⟨fun _ _ _ h1 h2 => h1.trans h2⟩

/-- The three invariants of a factorization record, for any list produced by
`prime_factorization`:  strictly increasing primes, positive exponents, and
product reconstruction. -/
theorem prime_factorization_spec {n : Nat} (h2 : 2 ≤ n) :
    List.Chain' (fun a b => a.1 < b.1) (Optimized.prime_factorization n) ∧
      (∀ pe ∈ Optimized.prime_factorization n, Nat.Prime pe.1 ∧ 1 ≤ pe.2) ∧
      ((Optimized.prime_factorization n).map (fun pe => pe.1 ^ pe.2)).prod = n := by
  -- reduce to the unsorted list: prove its properties, then the sort is a no-op
  suffices H : ∃ L : List (Nat × Nat),
      Optimized.prime_factorization n = L.insertionSort Optimized.pairLe ∧
      List.Chain' (fun a b => a.1 < b.1) L ∧
      (∀ pe ∈ L, Nat.Prime pe.1 ∧ 1 ≤ pe.2) ∧
      (L.map (fun pe => pe.1 ^ pe.2)).prod = n by
    obtain ⟨L, hL, hchain, hmem, hprod⟩ := H
    have hsorted : List.Sorted Optimized.pairLe L := by
      have hpw : List.Pairwise (fun a b : Nat × Nat => a.1 < b.1) L :=
        List.chain'_iff_pairwise.mp hchain
      exact hpw.imp (fun h => Or.inl h)
    rw [hL, List.Sorted.insertionSort_eq hsorted]
    exact ⟨hchain, hmem, hprod⟩
  unfold Optimized.prime_factorization
  simp only []
  by_cases hev : n % 2 = 0
  · -- even case: the factor 2 is stripped first
    rw [if_pos hev]
    simp only []
    obtain ⟨hdvd, hodd⟩ := trailingZeros_spec n (by omega)
    set c := trailingZeros n with hc
    have hshift : n >>> c = n / 2 ^ c := Nat.shiftRight_eq_div_pow n c
    set m := n >>> c with hm
    have hmdiv : m = n / 2 ^ c := hshift
    have hnm : n = 2 ^ c * m := by
      rw [hmdiv]
      exact (Nat.mul_div_cancel' hdvd).symm
    have hmodd : m % 2 = 1 := by rw [hmdiv]; exact hodd
    have hmpos : 0 < m := by
      rw [hmdiv]
      exact Nat.div_pos (Nat.le_of_dvd (by omega) hdvd) (by positivity)
    have hc1 : 1 ≤ c := by
      by_contra hc0
      have h00 : c = 0 := by omega
      rw [h00, pow_zero, Nat.div_one] at hmdiv
      omega
    have hinv : ∀ m', 2 ≤ m' → m' < 3 → ¬ m' ∣ m := by
      intro m' hm2 hm3 hmd
      have hm'2 : m' = 2 := by omega
      subst hm'2
      omega
    obtain ⟨new, l1, l2, l3, l4, l5, l6⟩ :=
      oddFactorLoop_spec 3 m [(2, c)] (by omega) (by omega) hmpos hinv
    set R := (Optimized.oddFactorLoop 3 m [(2, c)]).2 with hR
    rw [l1]
    have hallltR : 1 < R → ∀ pe ∈ [(2, c)] ++ new, pe.1 < R := by
      intro hR1 pe hpe
      rcases l6 with h | ⟨hRp, hR3, hRlt⟩
      · omega
      · rcases List.mem_append.mp hpe with hpe | hpe
        · have : pe = (2, c) := by simpa using hpe
          rw [this]
          simp only []
          omega
        · exact hRlt pe hpe
    have hmemall : ∀ pe ∈ [(2, c)] ++ new, Nat.Prime pe.1 ∧ 1 ≤ pe.2 := by
      intro pe hpe
      rcases List.mem_append.mp hpe with hpe | hpe
      · have : pe = (2, c) := by simpa using hpe
        rw [this]
        exact ⟨Nat.prime_two, hc1⟩
      · obtain ⟨a, b, _⟩ := l3 pe hpe
        exact ⟨a, b⟩
    have hchainmid : List.Chain' (fun a b => a.1 < b.1) ([(2, c)] ++ new) := by
      rw [List.chain'_append]
      refine ⟨by simp, l2, ?_⟩
      intro x hx y hy
      have hx' : (2, c) = x := by simpa using hx
      have hy' := List.mem_of_mem_head? hy
      have := (l3 y hy').2.2
      rw [← hx']
      simp only []
      omega
    have hprodmid : (([(2, c)] ++ new).map (fun pe : Nat × Nat => pe.1 ^ pe.2)).prod * R = n := by
      rw [List.map_append, List.prod_append]
      have : (([(2, c)] : List (Nat × Nat)).map (fun pe => pe.1 ^ pe.2)).prod = 2 ^ c := by
        simp
      rw [this, Nat.mul_assoc, l4, ← hnm]
    by_cases hR1 : 1 < R
    · rw [if_pos hR1]
      refine ⟨([(2, c)] ++ new) ++ [(R, 1)], rfl, ?_, ?_, ?_⟩
      · rw [List.chain'_append]
        refine ⟨hchainmid, by simp, ?_⟩
        intro x hx y hy
        have hy' : (R, 1) = y := by simpa using hy
        rw [← hy']
        exact hallltR hR1 x (mem_of_getLast? hx)
      · intro pe hpe
        rcases List.mem_append.mp hpe with hpe | hpe
        · exact hmemall pe hpe
        · have : pe = (R, 1) := by simpa using hpe
          rw [this]
          rcases l6 with h | ⟨hRp, _, _⟩
          · omega
          · exact ⟨hRp, le_refl 1⟩
      · rw [List.map_append, List.prod_append]
        have : (([(R, 1)] : List (Nat × Nat)).map (fun pe => pe.1 ^ pe.2)).prod = R := by
          simp
        rw [this]
        exact hprodmid
    · rw [if_neg hR1]
      have hReq : R = 1 := by omega
      refine ⟨[(2, c)] ++ new, rfl, hchainmid, hmemall, ?_⟩
      rw [← hprodmid, hReq, Nat.mul_one]
  · -- odd case: no factor 2
    rw [if_neg hev]
    simp only []
    have hinv : ∀ m', 2 ≤ m' → m' < 3 → ¬ m' ∣ n := by
      intro m' hm2 hm3 hmd
      have : m' = 2 := by omega
      subst this
      omega
    obtain ⟨new, l1, l2, l3, l4, l5, l6⟩ :=
      oddFactorLoop_spec 3 n [] (by omega) (by omega) (by omega) hinv
    set R := (Optimized.oddFactorLoop 3 n []).2 with hR
    rw [l1]
    simp only [List.nil_append]
    by_cases hR1 : 1 < R
    · rw [if_pos hR1]
      refine ⟨new ++ [(R, 1)], rfl, ?_, ?_, ?_⟩
      · rw [List.chain'_append]
        refine ⟨l2, by simp, ?_⟩
        intro x hx y hy
        have hy' : (R, 1) = y := by simpa using hy
        rw [← hy']
        rcases l6 with h | ⟨_, _, hRlt⟩
        · omega
        · exact hRlt x (mem_of_getLast? hx)
      · intro pe hpe
        rcases List.mem_append.mp hpe with hpe | hpe
        · obtain ⟨a, b, _⟩ := l3 pe hpe
          exact ⟨a, b⟩
        · have : pe = (R, 1) := by simpa using hpe
          rw [this]
          rcases l6 with h | ⟨hRp, _, _⟩
          · omega
          · exact ⟨hRp, le_refl 1⟩
      · rw [List.map_append, List.prod_append]
        have h9 : (([(R, 1)] : List (Nat × Nat)).map (fun pe => pe.1 ^ pe.2)).prod = R := by
          simp
        rw [h9]
        exact l4
    · rw [if_neg hR1]
      have hReq : R = 1 := by omega
      refine ⟨new, rfl, l2, ?_, ?_⟩
      · intro pe hpe
        obtain ⟨a, b, _⟩ := l3 pe hpe
        exact ⟨a, b⟩
      · rw [← l4, hReq, Nat.mul_one]

end FactorizationLemmas

/-- Claim C9: for every base `n` in `[2, 65536]`, `prime_factorization n`
(and hence the cached value of `get_factorization n`) is a list of
(prime, exponent) pairs with strictly increasing prime components, all
exponents at least 1, and product of `prime^exponent` equal to `n`.
CONFIRMED (the upper bound 65536 is not even needed). -/
theorem claim_C9_factorization_sound {n : Nat} (h2 : 2 ≤ n) (h3 : n ≤ 65536) :
    List.Chain' (fun a b => a.1 < b.1) (Optimized.get_factorization n) ∧
      (∀ pe ∈ Optimized.get_factorization n, Nat.Prime pe.1 ∧ 1 ≤ pe.2) ∧
      ((Optimized.get_factorization n).map (fun pe => pe.1 ^ pe.2)).prod = n :=
  prime_factorization_spec h2

/-- Witness for claim C9 at `n = 65520 = 2^4 · 3^2 · 5 · 7 · 13`. -/
theorem claim_C9_factorization_sound_witness :
    List.Chain' (fun a b => a.1 < b.1) (Optimized.get_factorization 65520) ∧
      (∀ pe ∈ Optimized.get_factorization 65520, Nat.Prime pe.1 ∧ 1 ≤ pe.2) ∧
      ((Optimized.get_factorization 65520).map (fun pe => pe.1 ^ pe.2)).prod = 65520 :=
  claim_C9_factorization_sound (by decide) (by decide)

end FastBaseConvert
